import Mathlib

/-!
Verification of the branch-dispatch layer of libcerf's `err_fcts.c`
(complex error functions, Dawson's integral, Voigt profile).

The IEEE double values relevant to the dispatch logic are modelled by an
inductive type `R` with NaN, signed infinities, signed zeros and nonzero
rationals (finite nonzero doubles are idealised as exact rationals; the
dispatch logic only compares them and combines them arithmetically).
Complex doubles are pairs `Cx`.  The external collaborators
(`w_of_z`, `im_w_of_x`, `erfcx`, and the libm functions `erf`, `exp`,
`cos`, `sin`, `sqrt`, `cexp`) are abstracted as a structure `Kern`;
theorems state the hypotheses on them that they need.
-/

/-- A nonzero rational: the value of a finite nonzero double. -/
abbrev Qnz := {q : ℚ // q ≠ 0}

/-- Model of an IEEE double: NaN, signed infinity, signed zero, or a
nonzero finite value.  `neg = true` marks the negative sign. -/
inductive R where
  | nan : R
  | inf (neg : Bool) : R
  | zero (neg : Bool) : R
  | fin (q : Qnz) : R
deriving DecidableEq

/-- A complex double: ordered pair of real and imaginary part. -/
structure Cx where
  re : R
  im : R
deriving DecidableEq

/-- Shorthand for a finite nonzero literal. -/
def rq (q : ℚ) (h : q ≠ 0) : R := R.fin ⟨q, h⟩

/-- The double literal `0.0` (positive zero). -/
def z0 : R := R.zero false

/-- IEEE negation: flips the sign bit. -/
def negR : R → R
  | R.nan => R.nan
  | R.inf b => R.inf (!b)
  | R.zero b => R.zero (!b)
  | R.fin q => R.fin ⟨-q.val, neg_ne_zero.mpr q.prop⟩

/-- `isnan` predicate. -/
def isnanR : R → Bool
  | R.nan => true
  | _ => false

/-- IEEE equality `==` (NaN compares false to everything, `+0 == -0`). -/
def eqR : R → R → Bool
  | R.nan, _ => false
  | _, R.nan => false
  | R.inf a, R.inf b => a == b
  | R.inf _, _ => false
  | _, R.inf _ => false
  | R.zero _, R.zero _ => true
  | R.zero _, R.fin _ => false
  | R.fin _, R.zero _ => false
  | R.fin a, R.fin b => a.val == b.val

/-- IEEE `<` (false whenever an operand is NaN). -/
def ltR : R → R → Bool
  | R.nan, _ => false
  | _, R.nan => false
  | R.inf true, R.inf true => false
  | R.inf false, R.inf false => false
  | R.inf true, _ => true
  | _, R.inf true => false
  | R.inf false, _ => false
  | _, R.inf false => true
  | R.zero _, R.zero _ => false
  | R.zero _, R.fin q => decide (0 < q.val)
  | R.fin q, R.zero _ => decide (q.val < 0)
  | R.fin a, R.fin b => decide (a.val < b.val)

/-- IEEE `>`. -/
def gtR (a b : R) : Bool := ltR b a

/-- IEEE `<=`. -/
def leR (a b : R) : Bool := ltR a b || eqR a b

/-- IEEE `>=`. -/
def geR (a b : R) : Bool := ltR b a || eqR a b

/-- IEEE addition restricted to the model (exact on finite values;
`∞ + (-∞) = NaN`; `(+0) + (-0) = +0`; exact cancellation gives `+0`). -/
def addR : R → R → R
  | R.nan, _ => R.nan
  | _, R.nan => R.nan
  | R.inf a, R.inf b => if a == b then R.inf a else R.nan
  | R.inf a, _ => R.inf a
  | _, R.inf b => R.inf b
  | R.zero a, R.zero b => R.zero (a && b)
  | R.zero _, R.fin q => R.fin q
  | R.fin q, R.zero _ => R.fin q
  | R.fin a, R.fin b =>
      if h : a.val + b.val = 0 then R.zero false
      else R.fin ⟨a.val + b.val, h⟩

/-- IEEE subtraction `a - b = a + (-b)`. -/
def subR (a b : R) : R := addR a (negR b)

/-- IEEE multiplication (sign rules; `0 · ∞ = NaN`). -/
def mulR : R → R → R
  | R.nan, _ => R.nan
  | _, R.nan => R.nan
  | R.inf a, R.inf b => R.inf (a != b)
  | R.inf _, R.zero _ => R.nan
  | R.zero _, R.inf _ => R.nan
  | R.inf a, R.fin q => R.inf (a != decide (q.val < 0))
  | R.fin q, R.inf b => R.inf (decide (q.val < 0) != b)
  | R.zero a, R.zero b => R.zero (a != b)
  | R.zero a, R.fin q => R.zero (a != decide (q.val < 0))
  | R.fin q, R.zero b => R.zero (decide (q.val < 0) != b)
  | R.fin a, R.fin b => R.fin ⟨a.val * b.val, mul_ne_zero a.prop b.prop⟩

/-- IEEE division (sign rules; `x/0 = ±∞`, `0/0 = ∞/∞ = NaN`). -/
def divR : R → R → R
  | R.nan, _ => R.nan
  | _, R.nan => R.nan
  | R.inf _, R.inf _ => R.nan
  | R.inf a, R.zero b => R.inf (a != b)
  | R.inf a, R.fin q => R.inf (a != decide (q.val < 0))
  | R.zero a, R.inf b => R.zero (a != b)
  | R.zero _, R.zero _ => R.nan
  | R.zero a, R.fin q => R.zero (a != decide (q.val < 0))
  | R.fin q, R.inf b => R.zero (decide (q.val < 0) != b)
  | R.fin q, R.zero b => R.inf (decide (q.val < 0) != b)
  | R.fin a, R.fin b => R.fin ⟨a.val / b.val, div_ne_zero a.prop b.prop⟩

/-- `fabs`. -/
def fabsR : R → R
  | R.nan => R.nan
  | R.inf _ => R.inf false
  | R.zero _ => R.zero false
  | R.fin q => R.fin ⟨|q.val|, abs_ne_zero.mpr q.prop⟩

/- Complex operations, following C99 Annex G componentwise semantics for
mixed real/complex operands. -/

/-- Complex negation (componentwise). -/
def cNeg (w : Cx) : Cx := ⟨negR w.re, negR w.im⟩

/-- Complex subtraction (componentwise). -/
def cSub (u v : Cx) : Cx := ⟨subR u.re v.re, subR u.im v.im⟩

/-- Complex multiplication, naive `(ac-bd, ad+bc)` formula. -/
def cMul (u v : Cx) : Cx :=
  ⟨subR (mulR u.re v.re) (mulR u.im v.im),
   addR (mulR u.re v.im) (mulR u.im v.re)⟩

/-- `real * complex` (componentwise, C99 G.5.1). -/
def smul (s : R) (w : Cx) : Cx := ⟨mulR s w.re, mulR s w.im⟩

/-- `complex * real` (componentwise). -/
def cmulReal (w : Cx) (s : R) : Cx := ⟨mulR w.re s, mulR w.im s⟩

/-- `real + complex`: imaginary part untouched (C99 G.5.1). -/
def realAdd (s : R) (w : Cx) : Cx := ⟨addR s w.re, w.im⟩

/-- `real - complex`: imaginary part negated (C99 G.5.1). -/
def realSub (s : R) (w : Cx) : Cx := ⟨subR s w.re, negR w.im⟩

/-- `complex - real`: imaginary part untouched. -/
def csubReal (w : Cx) (s : R) : Cx := ⟨subR w.re s, w.im⟩

/-- `complex / real` (componentwise). -/
def cdivReal (w : Cx) (s : R) : Cx := ⟨divR w.re s, divR w.im s⟩

/-- Conversion of a real scalar to complex (imaginary part `+0`),
used when a C function with complex return type returns a real value. -/
def toCx (s : R) : Cx := ⟨s, R.zero false⟩

/-- The external collaborators of `err_fcts.c`: the Faddeeva kernel, its
real-axis specialisations, and the libm functions. -/
structure Kern where
  w_of_z : Cx → Cx
  im_w_of_x : R → R
  erfcx : R → R
  erf : R → R
  exp : R → R
  cos : R → R
  sin : R → R
  sqrt : R → R
  cexp : Cx → Cx

/-- A concrete instantiation of the collaborators used by witnesses: the
libm-style functions are the identity (which propagates NaN and is odd),
and `w_of_z` maps any argument with a NaN component to `(NaN, NaN)`. -/
def modelKern : Kern where
  w_of_z := fun w => if isnanR w.re || isnanR w.im then ⟨R.nan, R.nan⟩ else w
  im_w_of_x := fun a => a
  erfcx := fun a => a
  erf := fun a => a
  exp := fun a => a
  cos := fun a => a
  sin := fun a => a
  sqrt := fun a => a
  cexp := fun w => w

/-- `sqrt(pi)/2`, constant `spi2` of the source. -/
def spi2R : R := rq 0.8862269254527580136490837416705725913990 (by norm_num)

/-- `sqrt(2*pi)`, constant `s2pi` of the source. -/
def s2piR : R := rq 2.5066282746310005024157652848110 (by norm_num)

/-- `pi`, constant of the source. -/
def piR : R := rq 3.141592653589793238462643383279503 (by norm_num)

/-! ### The dispatchers of `err_fcts.c` -/

/-- `cerfcx(z) = w_of_z(-cimag(z) + i*creal(z))` (err_fcts.c line 70). -/
def cerfcx (K : Kern) (z : Cx) : Cx := K.w_of_z ⟨negR z.im, z.re⟩

/-- `erfi(x)` (err_fcts.c line 88). -/
def erfi (K : Kern) (x : R) : R :=
  if gtR (mulR x x) (rq 720 (by norm_num)) then
    (if gtR x z0 then R.inf false else R.inf true)
  else mulR (K.exp (mulR x x)) (K.im_w_of_x x)

/-- `dawson(x) = spi2 * im_w_of_x(x)` (err_fcts.c line 96). -/
def dawson (K : Kern) (x : R) : R := mulR spi2R (K.im_w_of_x x)

/-- `re_w_of_z` (err_fcts.c line 105). -/
def re_w_of_z (K : Kern) (x y : R) : R := (K.w_of_z ⟨x, y⟩).re

/-- `im_w_of_z` (err_fcts.c line 110). -/
def im_w_of_z (K : Kern) (x y : R) : R := (K.w_of_z ⟨x, y⟩).im

/-- `voigt(x, sigma, gamma)` (err_fcts.c line 119). -/
def voigt (K : Kern) (x sigma gamma : R) : R :=
  let gam := if ltR gamma z0 then negR gamma else gamma
  let sig := if ltR sigma z0 then negR sigma else sigma
  if eqR gam z0 then
    if eqR sig z0 then
      -- delta function: `return x ? 0 : Inf;`
      (if eqR x z0 then R.inf false else z0)
    else
      -- pure Gaussian: `exp( -x*x/2/(sig*sig) ) / s2pi / sig`
      divR (divR (K.exp (divR (divR (mulR (negR x) x) (rq 2 (by norm_num)))
        (mulR sig sig))) s2piR) sig
  else
    if eqR sig z0 then
      -- pure Lorentzian: `gam / pi / (x*x + gam*gam)`
      divR (divR gam piR) (addR (mulR x x) (mulR gam gam))
    else
      -- regular case: `creal(w_of_z(CNUM(x,gam)/sqrt(2)/sig)) / s2pi / sig`
      divR (divR (K.w_of_z (cdivReal (cdivReal ⟨x, gam⟩
        (K.sqrt (rq 2 (by norm_num)))) sig)).re s2piR) sig

/-- The `taylor:` block of `cerf` (err_fcts.c line 223). -/
def cerfTaylor (z : Cx) (mRe mIm : R) : Cx :=
  let mz2 : Cx := ⟨mRe, mIm⟩
  cMul z (realAdd (rq 1.1283791670955125739 (by norm_num))
    (cMul mz2 (realAdd (rq 0.37612638903183752464 (by norm_num))
      (cMul mz2 (realAdd (rq 0.11283791670955125739 (by norm_num))
        (cMul mz2 (realAdd (rq 0.026866170645131251760 (by norm_num))
          (cmulReal mz2 (rq 0.0052239776254421878422 (by norm_num))))))))))

/-- The `taylor_erfi:` block of `cerf` (err_fcts.c line 242). -/
def cerfTaylorErfi (K : Kern) (x y : R) : Cx :=
  let x2 := mulR x x
  let y2 := mulR y y
  let expy2 := K.exp y2
  ⟨mulR (mulR expy2 x)
     (addR (subR (rq 1.1283791670955125739 (by norm_num))
         (mulR x2 (addR (rq 0.37612638903183752464 (by norm_num))
           (mulR (rq 0.75225277806367504925 (by norm_num)) y2))))
       (mulR (mulR x2 x2)
         (addR (rq 0.11283791670955125739 (by norm_num))
           (mulR y2 (addR (rq 0.45135166683820502956 (by norm_num))
             (mulR (rq 0.15045055561273500986 (by norm_num)) y2)))))),
   mulR expy2
     (subR (K.im_w_of_x y)
       (mulR (mulR x2 y)
         (subR (rq 1.1283791670955125739 (by norm_num))
           (mulR x2 (addR (rq 0.56418958354775628695 (by norm_num))
             (mulR (rq 0.37612638903183752464 (by norm_num)) y2))))))⟩

/-- The `x >= 0` general branch of `cerf` (err_fcts.c line 201):
`1.0 - exp(mRe_z2) * (CNUM(cos(mIm_z2), sin(mIm_z2)) * w_of_z(CNUM(-y,x)))`. -/
def cerfMainPos (K : Kern) (x y mRe mIm : R) : Cx :=
  realSub (rq 1 (by norm_num))
    (smul (K.exp mRe) (cMul ⟨K.cos mIm, K.sin mIm⟩ (K.w_of_z ⟨negR y, x⟩)))

/-- The `x < 0` general branch of `cerf` (err_fcts.c line 216):
`exp(mRe_z2) * (CNUM(cos(mIm_z2), sin(mIm_z2)) * w_of_z(CNUM(y,-x))) - 1.0`. -/
def cerfMainNeg (K : Kern) (x y mRe mIm : R) : Cx :=
  csubReal
    (smul (K.exp mRe) (cMul ⟨K.cos mIm, K.sin mIm⟩ (K.w_of_z ⟨y, negR x⟩)))
    (rq 1 (by norm_num))

/-- `cerf(z)` (err_fcts.c line 164). -/
def cerf (K : Kern) (z : Cx) : Cx :=
  let x := z.re
  let y := z.im
  if eqR y z0 then ⟨K.erf x, y⟩
  else if eqR x z0 then
    ⟨x, if gtR (mulR y y) (rq 720 (by norm_num)) then
          (if gtR y z0 then R.inf false else R.inf true)
        else mulR (K.exp (mulR y y)) (K.im_w_of_x y)⟩
  else
    let mRe := mulR (subR y x) (addR x y)
    let mIm := mulR (mulR (rq (-2) (by norm_num)) x) y
    if ltR mRe (rq (-750) (by norm_num)) then
      toCx (if geR x z0 then rq 1 (by norm_num) else rq (-1) (by norm_num))
    else if geR x z0 then
      if ltR x (rq 8e-2 (by norm_num)) then
        if ltR (fabsR y) (rq 1e-2 (by norm_num)) then cerfTaylor z mRe mIm
        else if ltR (fabsR mIm) (rq 5e-3 (by norm_num)) && ltR x (rq 5e-3 (by norm_num)) then
          cerfTaylorErfi K x y
        else cerfMainPos K x y mRe mIm
      else cerfMainPos K x y mRe mIm
    else
      if gtR x (rq (-8e-2) (by norm_num)) then
        if ltR (fabsR y) (rq 1e-2 (by norm_num)) then cerfTaylor z mRe mIm
        else if ltR (fabsR mIm) (rq 5e-3 (by norm_num)) && gtR x (rq (-5e-3) (by norm_num)) then
          cerfTaylorErfi K x y
        else cerfMainNeg K x y mRe mIm
      else if isnanR x then ⟨R.nan, if eqR y z0 then z0 else R.nan⟩
      else cerfMainNeg K x y mRe mIm

/-- `cerfi(z)` (err_fcts.c line 79). -/
def cerfi (K : Kern) (z : Cx) : Cx :=
  let e := cerf K ⟨negR z.im, z.re⟩
  ⟨e.im, negR e.re⟩

/-- `cerfc(z)` (err_fcts.c line 264). -/
def cerfc (K : Kern) (z : Cx) : Cx :=
  let x := z.re
  let y := z.im
  if eqR x z0 then
    ⟨rq 1 (by norm_num),
     if gtR (mulR y y) (rq 720 (by norm_num)) then
       (if gtR y z0 then R.inf true else R.inf false)
     else mulR (negR (K.exp (mulR y y))) (K.im_w_of_x y)⟩
  else if eqR y z0 then
    if gtR (mulR x x) (rq 750 (by norm_num)) then
      ⟨if geR x z0 then z0 else rq 2 (by norm_num), negR y⟩
    else
      ⟨if geR x z0 then mulR (K.exp (mulR (negR x) x)) (K.erfcx x)
        else subR (rq 2 (by norm_num)) (mulR (K.exp (mulR (negR x) x)) (K.erfcx (negR x))),
       negR y⟩
  else
    let mRe := mulR (subR y x) (addR x y)
    let mIm := mulR (mulR (rq (-2) (by norm_num)) x) y
    if ltR mRe (rq (-750) (by norm_num)) then
      toCx (if geR x z0 then z0 else rq 2 (by norm_num))
    else if geR x z0 then
      cMul (K.cexp ⟨mRe, mIm⟩) (K.w_of_z ⟨negR y, x⟩)
    else
      realSub (rq 2 (by norm_num)) (cMul (K.cexp ⟨mRe, mIm⟩) (K.w_of_z ⟨y, negR x⟩))

/-- The `taylor:` block of `cdawson` (err_fcts.c line 367). -/
def cdTaylor (z mz2 : Cx) : Cx :=
  cMul z (realAdd (rq 1 (by norm_num))
    (cMul mz2 (realAdd (rq 0.6666666666666666666666666666666666666667 (by norm_num))
      (cmulReal mz2 (rq 0.2666666666666666666666666666666666666667 (by norm_num))))))

/-- The `|x| > 5e7` regime of the `taylor_realaxis:` block (err_fcts.c
line 410): simplified continued-fraction closed forms. -/
def cdRaHuge (x y : R) : Cx :=
  let x2 := mulR x x
  let y2 := mulR y y
  let xy2 := mulR (mulR x y) (mulR x y)
  ⟨divR (addR (rq 0.5 (by norm_num))
      (mulR y2 (subR (addR (rq 0.5 (by norm_num)) (mulR (rq 0.25 (by norm_num)) y2))
        (mulR (rq 0.16666666666666666667 (by norm_num)) xy2)))) x,
   divR (mulR y (addR (rq (-1) (by norm_num))
       (mulR y2 (subR (addR (rq (-0.66666666666666666667) (by norm_num))
         (mulR (rq 0.13333333333333333333 (by norm_num)) xy2))
         (mulR (rq 0.26666666666666666667 (by norm_num)) y2)))))
     (subR (mulR (rq 2 (by norm_num)) x2) (rq 1 (by norm_num)))⟩

/-- The `1600 < x² ≤ 25e14` regime of the `taylor_realaxis:` block
(err_fcts.c line 419): rational polynomial from the 6-term continued
fraction. -/
def cdRaCF (x y : R) : Cx :=
  let x2 := mulR x x
  let y2 := mulR y y
  smul (divR (rq 1 (by norm_num))
      (addR (rq (-15) (by norm_num)) (mulR x2 (addR (rq 90 (by norm_num))
        (mulR x2 (addR (rq (-60) (by norm_num)) (mulR (rq 8 (by norm_num)) x2)))))))
    ⟨mulR x (addR (addR (rq 33 (by norm_num))
         (mulR x2 (addR (rq (-28) (by norm_num)) (mulR (rq 4 (by norm_num)) x2))))
        (mulR y2 (addR (subR (rq 18 (by norm_num)) (mulR (rq 4 (by norm_num)) x2))
          (mulR (rq 4 (by norm_num)) y2)))),
     mulR y (addR (addR (rq (-15) (by norm_num))
         (mulR x2 (subR (rq 24 (by norm_num)) (mulR (rq 4 (by norm_num)) x2))))
        (mulR y2 (subR (subR (mulR (rq 4 (by norm_num)) x2) (rq 10 (by norm_num)))
          (mulR (rq 4 (by norm_num)) y2))))⟩

/-- The `x² ≤ 1600` regime of the `taylor_realaxis:` block (err_fcts.c
line 425): compound Taylor series around `D = dawson(x)`. -/
def cdRaSmall (K : Kern) (x y : R) : Cx :=
    let x2 := mulR x x
    let D := mulR spi2R (K.im_w_of_x x)
    let y2 := mulR y y
    ⟨addR (addR D (mulR y2 (subR (addR D x) (mulR (mulR (rq 2 (by norm_num)) D) x2))))
       (mulR (mulR y2 y2)
         (addR (mulR D (subR (rq 0.5 (by norm_num))
             (mulR x2 (subR (rq 2 (by norm_num))
               (mulR (rq 0.66666666666666666667 (by norm_num)) x2)))))
           (mulR x (subR (rq 0.83333333333333333333 (by norm_num))
             (mulR (rq 0.33333333333333333333 (by norm_num)) x2))))),
     mulR y (addR (addR (subR (rq 1 (by norm_num)) (mulR (mulR (rq 2 (by norm_num)) D) x))
         (mulR (mulR y2 (rq 0.66666666666666666667 (by norm_num)))
           (subR (subR (rq 1 (by norm_num)) x2)
             (mulR (mulR D x) (subR (rq 3 (by norm_num))
               (mulR (rq 2 (by norm_num)) x2))))))
       (mulR (mulR y2 y2)
         (subR (subR (rq 0.26666666666666666667 (by norm_num))
             (mulR x2 (subR (rq 0.6 (by norm_num))
               (mulR (rq 0.13333333333333333333 (by norm_num)) x2))))
           (mulR (mulR D x) (subR (rq 1 (by norm_num))
             (mulR x2 (subR (rq 1.3333333333333333333 (by norm_num))
               (mulR (rq 0.26666666666666666667 (by norm_num)) x2))))))))⟩

/-- The `taylor_realaxis:` block of `cdawson` (err_fcts.c line 405),
dispatching among the three regimes keyed on `x²`. -/
def cdRealaxis (K : Kern) (x y : R) : Cx :=
  let x2 := mulR x x
  if gtR x2 (rq 1600 (by norm_num)) then
    (if gtR x2 (rq 25e14 (by norm_num)) then cdRaHuge x y else cdRaCF x y)
  else cdRaSmall K x y

/-- The `y >= 0` general branch of `cdawson` (err_fcts.c line 349):
`res = cexp(mz2) - w_of_z(z); spi2 * CNUM(-cimag(res), creal(res))`. -/
def cdMainPos (K : Kern) (z mz2 : Cx) : Cx :=
  let res := cSub (K.cexp mz2) (K.w_of_z z)
  smul spi2R ⟨negR res.im, res.re⟩

/-- The `y < 0` general branch of `cdawson` (err_fcts.c line 361):
`res = w_of_z(-z) - cexp(mz2); spi2 * CNUM(-cimag(res), creal(res))`. -/
def cdMainNeg (K : Kern) (z mz2 : Cx) : Cx :=
  let res := cSub (K.w_of_z (cNeg z)) (K.cexp mz2)
  smul spi2R ⟨negR res.im, res.re⟩

/-- `cdawson(z)` (err_fcts.c line 306). -/
def cdawson (K : Kern) (z : Cx) : Cx :=
  let x := z.re
  let y := z.im
  if eqR y z0 then ⟨mulR spi2R (K.im_w_of_x x), negR y⟩
  else if eqR x z0 then
    let y2 := mulR y y
    if ltR y2 (rq 2.5e-5 (by norm_num)) then
      ⟨x, mulR y (addR (rq 1 (by norm_num))
           (mulR y2 (addR (rq 0.6666666666666666666666666666666666666667 (by norm_num))
             (mulR y2 (rq 0.26666666666666666666666666666666666667 (by norm_num))))))⟩
    else
      ⟨x, mulR spi2R (if geR y z0 then subR (K.exp y2) (K.erfcx y)
                      else subR (K.erfcx (negR y)) (K.exp y2))⟩
  else
    let mRe := mulR (subR y x) (addR x y)
    let mIm := mulR (mulR (rq (-2) (by norm_num)) x) y
    let mz2 : Cx := ⟨mRe, mIm⟩
    if geR y z0 then
      if ltR y (rq 5e-3 (by norm_num)) then
        if ltR (fabsR x) (rq 5e-3 (by norm_num)) then cdTaylor z mz2
        else if ltR (fabsR mIm) (rq 5e-3 (by norm_num)) then cdRealaxis K x y
        else cdMainPos K z mz2
      else cdMainPos K z mz2
    else
      if gtR y (rq (-5e-3) (by norm_num)) then
        if ltR (fabsR x) (rq 5e-3 (by norm_num)) then cdTaylor z mz2
        else if ltR (fabsR mIm) (rq 5e-3 (by norm_num)) then cdRealaxis K x y
        else cdMainNeg K z mz2
      else if isnanR y then ⟨if eqR x z0 then z0 else R.nan, R.nan⟩
      else cdMainNeg K z mz2

/-! ### IEEE-datum equivalence

`sameB a b` holds when `a` and `b` are the same IEEE datum up to the sign
of a zero and with NaN identified with NaN (the strongest equivalence an
externally-supplied kernel can be expected to respect: `exp`, `cos`, `sin`
take the same value on `+0` and `-0`). -/

/-- Is the value a (signed) zero? -/
def isZeroR : R → Bool
  | R.zero _ => true
  | _ => false

/-- Same IEEE datum up to zero signs (NaN ≡ NaN). -/
def sameB (a b : R) : Bool := a == b || (isZeroR a && isZeroR b)

/-- Componentwise `sameB` on complex values. -/
def sameCx (u v : Cx) : Bool := sameB u.re v.re && sameB u.im v.im

/-! ### Branch classification of the dispatchers

Each dispatcher's guard chain is replicated in a classifier returning a
label, and each guarded return expression in an arm interpreter; the
factoring theorem (claim C2) shows every input is routed to exactly one
arm whose formula produces the dispatcher's result. -/

/-- Classification of a result value as finite, infinite, or NaN. -/
inductive ResClass where
  | finite : ResClass
  | infinite : ResClass
  | nanv : ResClass
deriving DecidableEq

/-- The class of a model value (zeros and nonzero rationals are finite). -/
def resClass : R → ResClass
  | R.nan => ResClass.nanv
  | R.inf _ => ResClass.infinite
  | R.zero _ => ResClass.finite
  | R.fin _ => ResClass.finite

/-- The branches of `cerf`. -/
inductive CerfBranch where
  | realAxis | imagAxis | underflow | taylor | taylorErfi | mainPos | nanNeg | mainNeg
deriving DecidableEq

/-- The guard chain of `cerf` (err_fcts.c lines 174-219) as a classifier. -/
def cerfBranchOf (z : Cx) : CerfBranch :=
  let x := z.re
  let y := z.im
  if eqR y z0 then CerfBranch.realAxis
  else if eqR x z0 then CerfBranch.imagAxis
  else
    let mRe := mulR (subR y x) (addR x y)
    let mIm := mulR (mulR (rq (-2) (by norm_num)) x) y
    if ltR mRe (rq (-750) (by norm_num)) then CerfBranch.underflow
    else if geR x z0 then
      if ltR x (rq 8e-2 (by norm_num)) then
        if ltR (fabsR y) (rq 1e-2 (by norm_num)) then CerfBranch.taylor
        else if ltR (fabsR mIm) (rq 5e-3 (by norm_num)) && ltR x (rq 5e-3 (by norm_num)) then
          CerfBranch.taylorErfi
        else CerfBranch.mainPos
      else CerfBranch.mainPos
    else
      if gtR x (rq (-8e-2) (by norm_num)) then
        if ltR (fabsR y) (rq 1e-2 (by norm_num)) then CerfBranch.taylor
        else if ltR (fabsR mIm) (rq 5e-3 (by norm_num)) && gtR x (rq (-5e-3) (by norm_num)) then
          CerfBranch.taylorErfi
        else CerfBranch.mainNeg
      else if isnanR x then CerfBranch.nanNeg
      else CerfBranch.mainNeg

/-- The return expression of each `cerf` branch. -/
def cerfArm (K : Kern) (z : Cx) : CerfBranch → Cx :=
  let x := z.re
  let y := z.im
  let mRe := mulR (subR y x) (addR x y)
  let mIm := mulR (mulR (rq (-2) (by norm_num)) x) y
  fun b => match b with
  | CerfBranch.realAxis => ⟨K.erf x, y⟩
  | CerfBranch.imagAxis =>
      ⟨x, if gtR (mulR y y) (rq 720 (by norm_num)) then
            (if gtR y z0 then R.inf false else R.inf true)
          else mulR (K.exp (mulR y y)) (K.im_w_of_x y)⟩
  | CerfBranch.underflow =>
      toCx (if geR x z0 then rq 1 (by norm_num) else rq (-1) (by norm_num))
  | CerfBranch.taylor => cerfTaylor z mRe mIm
  | CerfBranch.taylorErfi => cerfTaylorErfi K x y
  | CerfBranch.mainPos => cerfMainPos K x y mRe mIm
  | CerfBranch.nanNeg => ⟨R.nan, if eqR y z0 then z0 else R.nan⟩
  | CerfBranch.mainNeg => cerfMainNeg K x y mRe mIm

/-- The branches of `cerfc`. -/
inductive CerfcBranch where
  | imagAxis | realUnderflow | realRegular | underflow | mainPos | mainNeg
deriving DecidableEq

/-- The guard chain of `cerfc` (err_fcts.c lines 273-299) as a classifier. -/
def cerfcBranchOf (z : Cx) : CerfcBranch :=
  let x := z.re
  let y := z.im
  if eqR x z0 then CerfcBranch.imagAxis
  else if eqR y z0 then
    if gtR (mulR x x) (rq 750 (by norm_num)) then CerfcBranch.realUnderflow
    else CerfcBranch.realRegular
  else
    let mRe := mulR (subR y x) (addR x y)
    if ltR mRe (rq (-750) (by norm_num)) then CerfcBranch.underflow
    else if geR x z0 then CerfcBranch.mainPos
    else CerfcBranch.mainNeg

/-- The return expression of each `cerfc` branch. -/
def cerfcArm (K : Kern) (z : Cx) : CerfcBranch → Cx :=
  let x := z.re
  let y := z.im
  let mRe := mulR (subR y x) (addR x y)
  let mIm := mulR (mulR (rq (-2) (by norm_num)) x) y
  fun b => match b with
  | CerfcBranch.imagAxis =>
      ⟨rq 1 (by norm_num),
       if gtR (mulR y y) (rq 720 (by norm_num)) then
         (if gtR y z0 then R.inf true else R.inf false)
       else mulR (negR (K.exp (mulR y y))) (K.im_w_of_x y)⟩
  | CerfcBranch.realUnderflow =>
      ⟨if geR x z0 then z0 else rq 2 (by norm_num), negR y⟩
  | CerfcBranch.realRegular =>
      ⟨if geR x z0 then mulR (K.exp (mulR (negR x) x)) (K.erfcx x)
        else subR (rq 2 (by norm_num)) (mulR (K.exp (mulR (negR x) x)) (K.erfcx (negR x))),
       negR y⟩
  | CerfcBranch.underflow => toCx (if geR x z0 then z0 else rq 2 (by norm_num))
  | CerfcBranch.mainPos => cMul (K.cexp ⟨mRe, mIm⟩) (K.w_of_z ⟨negR y, x⟩)
  | CerfcBranch.mainNeg =>
      realSub (rq 2 (by norm_num)) (cMul (K.cexp ⟨mRe, mIm⟩) (K.w_of_z ⟨y, negR x⟩))

/-- The branches of `cdawson`, with the `taylor_realaxis` regimes split. -/
inductive CdawsonBranch where
  | realAxis | imagTaylor | imagExact | taylor | raSmall | raCF | raHuge
  | mainPos | nanNeg | mainNeg
deriving DecidableEq

/-- The guard chain of `cdawson` (err_fcts.c lines 318-363 and 405-424)
as a classifier. -/
def cdawsonBranchOf (z : Cx) : CdawsonBranch :=
  let x := z.re
  let y := z.im
  if eqR y z0 then CdawsonBranch.realAxis
  else if eqR x z0 then
    if ltR (mulR y y) (rq 2.5e-5 (by norm_num)) then CdawsonBranch.imagTaylor
    else CdawsonBranch.imagExact
  else
    let mIm := mulR (mulR (rq (-2) (by norm_num)) x) y
    let ra :=
      if gtR (mulR x x) (rq 1600 (by norm_num)) then
        (if gtR (mulR x x) (rq 25e14 (by norm_num)) then CdawsonBranch.raHuge
         else CdawsonBranch.raCF)
      else CdawsonBranch.raSmall
    if geR y z0 then
      if ltR y (rq 5e-3 (by norm_num)) then
        if ltR (fabsR x) (rq 5e-3 (by norm_num)) then CdawsonBranch.taylor
        else if ltR (fabsR mIm) (rq 5e-3 (by norm_num)) then ra
        else CdawsonBranch.mainPos
      else CdawsonBranch.mainPos
    else
      if gtR y (rq (-5e-3) (by norm_num)) then
        if ltR (fabsR x) (rq 5e-3 (by norm_num)) then CdawsonBranch.taylor
        else if ltR (fabsR mIm) (rq 5e-3 (by norm_num)) then ra
        else CdawsonBranch.mainNeg
      else if isnanR y then CdawsonBranch.nanNeg
      else CdawsonBranch.mainNeg

/-- The return expression of each `cdawson` branch. -/
def cdawsonArm (K : Kern) (z : Cx) : CdawsonBranch → Cx :=
  let x := z.re
  let y := z.im
  let mRe := mulR (subR y x) (addR x y)
  let mIm := mulR (mulR (rq (-2) (by norm_num)) x) y
  let mz2 : Cx := ⟨mRe, mIm⟩
  fun b => match b with
  | CdawsonBranch.realAxis => ⟨mulR spi2R (K.im_w_of_x x), negR y⟩
  | CdawsonBranch.imagTaylor =>
      let y2 := mulR y y
      ⟨x, mulR y (addR (rq 1 (by norm_num))
           (mulR y2 (addR (rq 0.6666666666666666666666666666666666666667 (by norm_num))
             (mulR y2 (rq 0.26666666666666666666666666666666666667 (by norm_num))))))⟩
  | CdawsonBranch.imagExact =>
      let y2 := mulR y y
      ⟨x, mulR spi2R (if geR y z0 then subR (K.exp y2) (K.erfcx y)
                      else subR (K.erfcx (negR y)) (K.exp y2))⟩
  | CdawsonBranch.taylor => cdTaylor z mz2
  | CdawsonBranch.raSmall => cdRaSmall K x y
  | CdawsonBranch.raCF => cdRaCF x y
  | CdawsonBranch.raHuge => cdRaHuge x y
  | CdawsonBranch.mainPos => cdMainPos K z mz2
  | CdawsonBranch.nanNeg => ⟨if eqR x z0 then z0 else R.nan, R.nan⟩
  | CdawsonBranch.mainNeg => cdMainNeg K z mz2

/-- The branches of `voigt`. -/
inductive VoigtBranch where
  | delta | gaussian | lorentzian | regular
deriving DecidableEq

/-- The guard chain of `voigt` (err_fcts.c lines 140-157) as a classifier. -/
def voigtBranchOf (sigma gamma : R) : VoigtBranch :=
  let gam := if ltR gamma z0 then negR gamma else gamma
  let sig := if ltR sigma z0 then negR sigma else sigma
  if eqR gam z0 then
    if eqR sig z0 then VoigtBranch.delta else VoigtBranch.gaussian
  else
    if eqR sig z0 then VoigtBranch.lorentzian else VoigtBranch.regular

/-- The return expression of each `voigt` branch. -/
def voigtArm (K : Kern) (x sigma gamma : R) : VoigtBranch → R :=
  let gam := if ltR gamma z0 then negR gamma else gamma
  let sig := if ltR sigma z0 then negR sigma else sigma
  fun b => match b with
  | VoigtBranch.delta => (if eqR x z0 then R.inf false else z0)
  | VoigtBranch.gaussian =>
      divR (divR (K.exp (divR (divR (mulR (negR x) x) (rq 2 (by norm_num)))
        (mulR sig sig))) s2piR) sig
  | VoigtBranch.lorentzian =>
      divR (divR gam piR) (addR (mulR x x) (mulR gam gam))
  | VoigtBranch.regular =>
      divR (divR (K.w_of_z (cdivReal (cdivReal ⟨x, gam⟩
        (K.sqrt (rq 2 (by norm_num)))) sig)).re s2piR) sig

/-- The branches of `erfi`. -/
inductive ErfiBranch where
  | saturate | series
deriving DecidableEq

/-- The guard of `erfi` (err_fcts.c line 93) as a classifier. -/
def erfiBranchOf (x : R) : ErfiBranch :=
  if gtR (mulR x x) (rq 720 (by norm_num)) then ErfiBranch.saturate
  else ErfiBranch.series

/-- The return expression of each `erfi` branch. -/
def erfiArm (K : Kern) (x : R) : ErfiBranch → R := fun b => match b with
  | ErfiBranch.saturate => (if gtR x z0 then R.inf false else R.inf true)
  | ErfiBranch.series => mulR (K.exp (mulR x x)) (K.im_w_of_x x)

/-- The single branch of `dawson`. -/
inductive DawsonBranch where
  | direct
deriving DecidableEq

/-- `dawson` has a single unconditional branch. -/
def dawsonBranchOf (_ : R) : DawsonBranch := DawsonBranch.direct

/-- The return expression of the `dawson` branch. -/
def dawsonArm (K : Kern) (x : R) : DawsonBranch → R := fun b => match b with
  | DawsonBranch.direct => mulR spi2R (K.im_w_of_x x)

/-- The branch of `cdawson` taken by `-z` in terms of the branch taken
by `z`: the two general branches swap, all others are preserved. -/
def cdMirror : CdawsonBranch → CdawsonBranch
  | CdawsonBranch.realAxis => CdawsonBranch.realAxis
  | CdawsonBranch.imagTaylor => CdawsonBranch.imagTaylor
  | CdawsonBranch.imagExact => CdawsonBranch.imagExact
  | CdawsonBranch.taylor => CdawsonBranch.taylor
  | CdawsonBranch.raSmall => CdawsonBranch.raSmall
  | CdawsonBranch.raCF => CdawsonBranch.raCF
  | CdawsonBranch.raHuge => CdawsonBranch.raHuge
  | CdawsonBranch.mainPos => CdawsonBranch.mainNeg
  | CdawsonBranch.nanNeg => CdawsonBranch.nanNeg
  | CdawsonBranch.mainNeg => CdawsonBranch.mainPos

/-! ### Basic lemmas about the model arithmetic -/

theorem bne_notL (s t : Bool) : ((!s) != t) = !(s != t) := by
  cases s <;> cases t <;> rfl

theorem bne_notR (s t : Bool) : (s != (!t)) = !(s != t) := by
  cases s <;> cases t <;> rfl

theorem decide_neg_lt (q : Qnz) : (decide (-q.val < 0)) = !(decide (q.val < 0)) := by
  simp only [neg_lt_zero]
  rcases q.prop.lt_or_lt with h | h
  · simp [h, asymm h]
  · simp [h, asymm h]

theorem addR_nanR (a : R) : addR a R.nan = R.nan := by cases a <;> rfl

theorem subR_nanR (a : R) : subR a R.nan = R.nan := by
  cases a <;> rfl

theorem mulR_nanR (a : R) : mulR a R.nan = R.nan := by cases a <;> rfl

theorem divR_nanR (a : R) : divR a R.nan = R.nan := by cases a <;> rfl

theorem divR_nanL (a : R) : divR R.nan a = R.nan := by cases a <;> rfl

theorem ltR_nanR (a : R) : ltR a R.nan = false := by
  cases a with
  | nan => rfl
  | inf b => cases b <;> rfl
  | zero b => rfl
  | fin q => rfl

theorem eqR_nanR (a : R) : eqR a R.nan = false := by cases a <;> rfl

theorem geR_nanL (a : R) : geR R.nan a = false := by
  simp [geR, ltR_nanR, eqR]

theorem negR_negR (a : R) : negR (negR a) = a := by
  cases a <;> simp [negR]

theorem decide_pos_q (q : Qnz) : (decide (0 < q.val)) = !(decide (q.val < 0)) := by
  rcases q.prop.lt_or_lt with h | h
  · simp [h, asymm h]
  · simp [h, asymm h]

theorem mulR_negL (a b : R) : mulR (negR a) b = negR (mulR a b) := by
  cases a <;> cases b <;>
    simp [mulR, negR, decide_neg_lt, decide_pos_q, bne_notL, bne_notR,
      Subtype.ext_iff, neg_mul]

theorem mulR_negR (a b : R) : mulR a (negR b) = negR (mulR a b) := by
  cases a <;> cases b <;>
    simp [mulR, negR, decide_neg_lt, decide_pos_q, bne_notL, bne_notR,
      Subtype.ext_iff, mul_neg]

theorem mulR_negNeg (a b : R) : mulR (negR a) (negR b) = mulR a b := by
  rw [mulR_negL, mulR_negR, negR_negR]

theorem divR_negL (a b : R) : divR (negR a) b = negR (divR a b) := by
  cases a <;> cases b <;>
    simp [divR, negR, decide_neg_lt, decide_pos_q, bne_notL, bne_notR,
      Subtype.ext_iff, neg_div]

theorem divR_negR (a b : R) : divR a (negR b) = negR (divR a b) := by
  cases a <;> cases b <;>
    simp [divR, negR, decide_neg_lt, decide_pos_q, bne_notL, bne_notR,
      Subtype.ext_iff, div_neg]

theorem fabsR_negR (a : R) : fabsR (negR a) = fabsR a := by
  cases a <;> simp [fabsR, negR, Subtype.ext_iff, abs_neg]

theorem eqR_z0_negR (a : R) : eqR (negR a) z0 = eqR a z0 := by
  cases a <;> rfl

theorem ltR_negR (a b : R) : ltR (negR a) (negR b) = ltR b a := by
  cases a with
  | nan => cases b with
    | nan => rfl
    | inf t => cases t <;> rfl
    | zero t => rfl
    | fin q => rfl
  | inf s => cases b with
    | nan => cases s <;> rfl
    | inf t => cases s <;> cases t <;> rfl
    | zero t => cases s <;> rfl
    | fin q => cases s <;> rfl
  | zero s => cases b with
    | nan => rfl
    | inf t => cases t <;> rfl
    | zero t => rfl
    | fin q => simp [ltR, negR, neg_pos]
  | fin p => cases b with
    | nan => rfl
    | inf t => cases t <;> rfl
    | zero t => simp [ltR, negR, neg_lt_zero]
    | fin q => simp [ltR, negR]

theorem ltR_asymm (a b : R) : ltR a b = true → ltR b a = false := by
  cases a with
  | nan => intro h; cases b <;> simp_all [ltR]
  | inf s => cases b with
    | nan => cases s <;> simp [ltR]
    | inf t => cases s <;> cases t <;> simp [ltR]
    | zero t => cases s <;> simp [ltR]
    | fin q => cases s <;> simp [ltR]
  | zero s => cases b with
    | nan => simp [ltR]
    | inf t => cases t <;> simp [ltR]
    | zero t => simp [ltR]
    | fin q => simp [ltR]; intro h; exact h.le
  | fin p => cases b with
    | nan => simp [ltR]
    | inf t => cases t <;> simp [ltR]
    | zero t => simp [ltR]; intro h; exact h.le
    | fin q => simp [ltR]; intro h; exact h.le

theorem eqR_imp_not_ltR (a b : R) : eqR a b = true → ltR b a = false := by
  cases a with
  | nan => simp [eqR]
  | inf s => cases b with
    | nan => simp [eqR]
    | inf t => cases s <;> cases t <;> simp [eqR, ltR]
    | zero t => cases s <;> simp [eqR]
    | fin q => cases s <;> simp [eqR]
  | zero s => cases b with
    | nan => simp [eqR]
    | inf t => cases t <;> simp [eqR]
    | zero t => simp [eqR, ltR]
    | fin q => simp [eqR]
  | fin p => cases b with
    | nan => simp [eqR]
    | inf t => cases t <;> simp [eqR]
    | zero t => simp [eqR]
    | fin q => simp [eqR, ltR]; intro h; exact h.le

theorem leR_imp_not_gtR (a b : R) : leR a b = true → gtR a b = false := by
  intro h
  rcases Bool.or_eq_true_iff.mp h with h' | h'
  · exact ltR_asymm a b h'
  · exact eqR_imp_not_ltR a b h'

/-! ### Claims -/

/-- C10: `cerfcx(z)` returns exactly `w_of_z(-cimag(z), creal(z))`, the
Faddeeva kernel applied to `i·z`, with no dispatch branching and no
special handling of infinities, NaN, overflow or signed zeros: the result
is the bare kernel value for every collaborator instance and every input. -/
theorem cerfcx_is_kernel_rotation (K : Kern) (z : Cx) :
    cerfcx K z = K.w_of_z ⟨negR z.im, z.re⟩ := rfl

/-- C6: for every real `x` and either signed zero `y`, `cerf(x+iy)` has
real part `erf(x)` and imaginary part exactly the input's zero, sign
included (err_fcts.c line 174). -/
theorem cerf_real_axis (K : Kern) (x : R) (s : Bool) :
    cerf K ⟨x, R.zero s⟩ = ⟨K.erf x, R.zero s⟩ := rfl

/-- C8: `voigt(x, 0, 0)` is `+Infinity` when `x` compares equal to zero
(either signed zero) and `+0` otherwise (err_fcts.c line 143; the
condition `x ? 0 : Inf` tests `x != 0`, so a NaN `x` also yields 0). -/
theorem voigt_delta (K : Kern) (x : R) :
    voigt K x z0 z0 = (if eqR x z0 then R.inf false else z0) := rfl

/-- C5: for `y ≠ 0`, `x ≠ 0` and `(y-x)(x+y) < -750`, `cerf` returns the
scalar `1.0` when `x >= 0` and `-1.0` otherwise, converted to a complex
value with `+0` imaginary part (err_fcts.c line 186); the result is the
same for every collaborator instance, i.e. never computed via the
exponential path. -/
theorem cerf_underflow (K : Kern) (x y : R)
    (hy : eqR y z0 = false) (hx : eqR x z0 = false)
    (hu : ltR (mulR (subR y x) (addR x y)) (rq (-750) (by norm_num)) = true) :
    cerf K ⟨x, y⟩ =
      ⟨if geR x z0 then rq 1 (by norm_num) else rq (-1) (by norm_num),
       R.zero false⟩ := by
  simp [cerf, hy, hx, hu, toCx]

/-- Witness for C5 at `z = 30 + 1i`, where `(y-x)(x+y) = -899 < -750`. -/
theorem cerf_underflow_witness :
    cerf modelKern ⟨rq 30 (by norm_num), rq 1 (by norm_num)⟩ =
      ⟨if geR (rq 30 (by norm_num)) z0 then rq 1 (by norm_num)
        else rq (-1) (by norm_num),
       R.zero false⟩ :=
  cerf_underflow modelKern _ _ (by norm_num [eqR, rq, z0]) (by norm_num [eqR, rq, z0])
    (by norm_num [ltR, mulR, subR, addR, negR, rq])

/-- C7: for `x` either signed zero and `y = NaN`, `cdawson` returns
`(x, NaN)` — a zero real part (of the input's sign) and NaN imaginary
part — provided the external `erfcx` and `exp` propagate NaN
(err_fcts.c lines 321-333). -/
theorem cdawson_imag_axis_nan (K : Kern) (s : Bool)
    (he : K.erfcx R.nan = R.nan) (hx : K.exp R.nan = R.nan) :
    cdawson K ⟨R.zero s, R.nan⟩ = ⟨R.zero s, R.nan⟩ := by
  simp [cdawson, negR, he, hx, mulR_nanR, subR_nanR, eqR, ltR, geR, z0]

/-- Witness for C7 with the concrete collaborator instance. -/
theorem cdawson_imag_axis_nan_witness :
    cdawson modelKern ⟨R.zero false, R.nan⟩ = ⟨R.zero false, R.nan⟩ :=
  cdawson_imag_axis_nan modelKern false rfl rfl

/-- C9: `erfi(x)` saturates to `+Infinity` for `x > 0` and `-Infinity`
otherwise whenever `x*x > 720`, and equals `exp(x*x) * im_w_of_x(x)`
whenever `x*x <= 720` (err_fcts.c line 93). -/
theorem erfi_saturation_series (K : Kern) (x : R) :
    (gtR (mulR x x) (rq 720 (by norm_num)) = true →
      erfi K x = (if gtR x z0 then R.inf false else R.inf true)) ∧
    (leR (mulR x x) (rq 720 (by norm_num)) = true →
      erfi K x = mulR (K.exp (mulR x x)) (K.im_w_of_x x)) := by
  constructor
  · intro h; simp [erfi, h]
  · intro h
    simp [erfi, leR_imp_not_gtR _ _ h]

/-- Witness for C9: saturation at `x = 27` (`729 > 720`) and the series
branch at `x = 1`. -/
theorem erfi_saturation_series_witness :
    (erfi modelKern (rq 27 (by norm_num)) = R.inf false) ∧
    (erfi modelKern (rq 1 (by norm_num)) =
      mulR (modelKern.exp (mulR (rq 1 (by norm_num)) (rq 1 (by norm_num))))
        (modelKern.im_w_of_x (rq 1 (by norm_num)))) := by
  constructor
  · have h := (erfi_saturation_series modelKern (rq 27 (by norm_num))).1
      (by norm_num [gtR, ltR, mulR, rq])
    rw [h]
    norm_num [gtR, ltR, rq, z0]
  · exact (erfi_saturation_series modelKern (rq 1 (by norm_num))).2
      (by norm_num [leR, ltR, eqR, mulR, rq])

/-! ### Branch factoring (claim C2) -/

theorem cerf_factor (K : Kern) (z : Cx) :
    cerf K z = cerfArm K z (cerfBranchOf z) := by
  unfold cerf cerfBranchOf cerfArm
  dsimp only
  cases h1 : eqR z.im z0 with
  | true => rfl
  | false =>
  cases h2 : eqR z.re z0 with
  | true => rfl
  | false =>
  cases h3 : ltR (mulR (subR z.im z.re) (addR z.re z.im)) (rq (-750) (by norm_num)) with
  | true => rfl
  | false =>
  cases h4 : geR z.re z0 with
  | true =>
    cases h5 : ltR z.re (rq 8e-2 (by norm_num)) with
    | false => rfl
    | true =>
      cases h6 : ltR (fabsR z.im) (rq 1e-2 (by norm_num)) with
      | true => rfl
      | false =>
        cases h7 : ltR (fabsR (mulR (mulR (rq (-2) (by norm_num)) z.re) z.im))
            (rq 5e-3 (by norm_num)) && ltR z.re (rq 5e-3 (by norm_num)) <;> rfl
  | false =>
    cases h8 : gtR z.re (rq (-8e-2) (by norm_num)) with
    | true =>
      cases h9 : ltR (fabsR z.im) (rq 1e-2 (by norm_num)) with
      | true => rfl
      | false =>
        cases h10 : ltR (fabsR (mulR (mulR (rq (-2) (by norm_num)) z.re) z.im))
            (rq 5e-3 (by norm_num)) && gtR z.re (rq (-5e-3) (by norm_num)) <;> rfl
    | false =>
      cases h11 : isnanR z.re <;> rfl

theorem cerfc_factor (K : Kern) (z : Cx) :
    cerfc K z = cerfcArm K z (cerfcBranchOf z) := by
  unfold cerfc cerfcBranchOf cerfcArm
  dsimp only
  cases h1 : eqR z.re z0 with
  | true => rfl
  | false =>
  cases h2 : eqR z.im z0 with
  | true => cases h3 : gtR (mulR z.re z.re) (rq 750 (by norm_num)) <;> rfl
  | false =>
  cases h4 : ltR (mulR (subR z.im z.re) (addR z.re z.im)) (rq (-750) (by norm_num)) with
  | true => rfl
  | false => cases h5 : geR z.re z0 <;> rfl

theorem cdawson_factor (K : Kern) (z : Cx) :
    cdawson K z = cdawsonArm K z (cdawsonBranchOf z) := by
  unfold cdawson cdawsonBranchOf cdawsonArm cdRealaxis
  dsimp only
  cases h1 : eqR z.im z0 with
  | true => rfl
  | false =>
  cases h2 : eqR z.re z0 with
  | true => cases h3 : ltR (mulR z.im z.im) (rq 2.5e-5 (by norm_num)) <;> rfl
  | false =>
  cases h4 : geR z.im z0 with
  | true =>
    cases h5 : ltR z.im (rq 5e-3 (by norm_num)) with
    | false => rfl
    | true =>
      cases h6 : ltR (fabsR z.re) (rq 5e-3 (by norm_num)) with
      | true => rfl
      | false =>
        cases h7 : ltR (fabsR (mulR (mulR (rq (-2) (by norm_num)) z.re) z.im))
            (rq 5e-3 (by norm_num)) with
        | false => rfl
        | true =>
          cases h8 : gtR (mulR z.re z.re) (rq 1600 (by norm_num)) with
          | false => rfl
          | true => cases h9 : gtR (mulR z.re z.re) (rq 25e14 (by norm_num)) <;> rfl
  | false =>
    cases h10 : gtR z.im (rq (-5e-3) (by norm_num)) with
    | true =>
      cases h6 : ltR (fabsR z.re) (rq 5e-3 (by norm_num)) with
      | true => rfl
      | false =>
        cases h7 : ltR (fabsR (mulR (mulR (rq (-2) (by norm_num)) z.re) z.im))
            (rq 5e-3 (by norm_num)) with
        | false => rfl
        | true =>
          cases h8 : gtR (mulR z.re z.re) (rq 1600 (by norm_num)) with
          | false => rfl
          | true => cases h9 : gtR (mulR z.re z.re) (rq 25e14 (by norm_num)) <;> rfl
    | false => cases h11 : isnanR z.im <;> rfl

theorem voigt_factor (K : Kern) (x sigma gamma : R) :
    voigt K x sigma gamma = voigtArm K x sigma gamma (voigtBranchOf sigma gamma) := by
  unfold voigt voigtBranchOf voigtArm
  dsimp only
  cases h1 : ltR gamma z0 <;> cases h2 : ltR sigma z0 <;>
    simp only [Bool.false_eq_true, if_false, if_true] <;>
    first
      | (cases h3 : eqR (negR gamma) z0 <;> cases h4 : eqR (negR sigma) z0 <;> rfl)
      | (cases h3 : eqR (negR gamma) z0 <;> cases h4 : eqR sigma z0 <;> rfl)
      | (cases h3 : eqR gamma z0 <;> cases h4 : eqR (negR sigma) z0 <;> rfl)
      | (cases h3 : eqR gamma z0 <;> cases h4 : eqR sigma z0 <;> rfl)

theorem erfi_factor (K : Kern) (x : R) :
    erfi K x = erfiArm K x (erfiBranchOf x) := by
  unfold erfi erfiBranchOf erfiArm
  cases h1 : gtR (mulR x x) (rq 720 (by norm_num)) <;> rfl

theorem dawson_factor (K : Kern) (x : R) :
    dawson K x = dawsonArm K x (dawsonBranchOf x) := rfl

/-- C2: every dispatcher is total.  For every input, the guard chain
selects exactly one branch label, the dispatcher's result is exactly the
selected branch's return expression, there is exactly one result, and
every model value is classified as finite, infinite, or NaN. -/
theorem dispatchers_total (K : Kern) :
    (∀ z : Cx, cerf K z = cerfArm K z (cerfBranchOf z) ∧
      (∃! b, cerfBranchOf z = b) ∧ (∃! w, cerf K z = w)) ∧
    (∀ z : Cx, cerfc K z = cerfcArm K z (cerfcBranchOf z) ∧
      (∃! b, cerfcBranchOf z = b) ∧ (∃! w, cerfc K z = w)) ∧
    (∀ z : Cx, cdawson K z = cdawsonArm K z (cdawsonBranchOf z) ∧
      (∃! b, cdawsonBranchOf z = b) ∧ (∃! w, cdawson K z = w)) ∧
    (∀ x sigma gamma : R,
      voigt K x sigma gamma = voigtArm K x sigma gamma (voigtBranchOf sigma gamma) ∧
      (∃! b, voigtBranchOf sigma gamma = b) ∧ (∃! r, voigt K x sigma gamma = r)) ∧
    (∀ x : R, erfi K x = erfiArm K x (erfiBranchOf x) ∧
      (∃! b, erfiBranchOf x = b) ∧ (∃! r, erfi K x = r)) ∧
    (∀ x : R, dawson K x = dawsonArm K x (dawsonBranchOf x) ∧
      (∃! b, dawsonBranchOf x = b) ∧ (∃! r, dawson K x = r)) ∧
    (∀ a : R, resClass a = ResClass.finite ∨ resClass a = ResClass.infinite ∨
      resClass a = ResClass.nanv) := by
  refine ⟨fun z => ⟨cerf_factor K z, ⟨_, rfl, fun _ h => h.symm⟩, ⟨_, rfl, fun _ h => h.symm⟩⟩,
    fun z => ⟨cerfc_factor K z, ⟨_, rfl, fun _ h => h.symm⟩, ⟨_, rfl, fun _ h => h.symm⟩⟩,
    fun z => ⟨cdawson_factor K z, ⟨_, rfl, fun _ h => h.symm⟩, ⟨_, rfl, fun _ h => h.symm⟩⟩,
    fun x sigma gamma => ⟨voigt_factor K x sigma gamma, ⟨_, rfl, fun _ h => h.symm⟩,
      ⟨_, rfl, fun _ h => h.symm⟩⟩,
    fun x => ⟨erfi_factor K x, ⟨_, rfl, fun _ h => h.symm⟩, ⟨_, rfl, fun _ h => h.symm⟩⟩,
    fun x => ⟨dawson_factor K x, ⟨_, rfl, fun _ h => h.symm⟩, ⟨_, rfl, fun _ h => h.symm⟩⟩,
    fun a => ?_⟩
  cases a <;> simp [resClass]

/-- C4 counterexample: at `x = 100`, neither `y = 0` nor `y = 1e-4` is
routed to the `x² > 1600` continued-fraction branch: `y = 0` hits the
`y == 0` real-axis-kernel branch first, and at `y = 1e-4` the guard
`|−2xy| = 0.02 < 5e-3` fails, so the general `cexp − w` branch fires. -/
theorem cdawson_cf_routing_counterexample :
    cdawsonBranchOf ⟨rq 100 (by norm_num), R.zero false⟩ = CdawsonBranch.realAxis ∧
    cdawsonBranchOf ⟨rq 100 (by norm_num), rq 1e-4 (by norm_num)⟩ = CdawsonBranch.mainPos ∧
    CdawsonBranch.realAxis ≠ CdawsonBranch.raCF ∧
    CdawsonBranch.mainPos ≠ CdawsonBranch.raCF := by
  refine ⟨?_, ?_, by simp, by simp⟩
  · norm_num [cdawsonBranchOf, eqR, z0, rq]
  · norm_num [cdawsonBranchOf, mulR, subR, addR, negR, ltR, eqR, geR, gtR, fabsR,
      rq, z0, abs_lt, le_abs]

/-- C4 amended: at `x = 100`, the input `y = 0` is answered by the
real-axis kernel branch (`(spi2·im_w_of_x(100), -0)`), the input
`y = 1e-4` by the general `cexp − w` branch, and the `x² > 1600`
continued-fraction branch fires at `x = 100` only when `|−2xy| < 5e-3`,
e.g. for `y = 1e-5`. -/
theorem cdawson_cf_routing_amended :
    (∀ K : Kern, cdawson K ⟨rq 100 (by norm_num), R.zero false⟩ =
        ⟨mulR spi2R (K.im_w_of_x (rq 100 (by norm_num))), R.zero true⟩) ∧
    (∀ K : Kern, cdawson K ⟨rq 100 (by norm_num), rq 1e-4 (by norm_num)⟩ =
        cdMainPos K ⟨rq 100 (by norm_num), rq 1e-4 (by norm_num)⟩
          ⟨mulR (subR (rq 1e-4 (by norm_num)) (rq 100 (by norm_num)))
              (addR (rq 100 (by norm_num)) (rq 1e-4 (by norm_num))),
            mulR (mulR (rq (-2) (by norm_num)) (rq 100 (by norm_num)))
              (rq 1e-4 (by norm_num))⟩) ∧
    cdawsonBranchOf ⟨rq 100 (by norm_num), rq 1e-5 (by norm_num)⟩ = CdawsonBranch.raCF := by
  refine ⟨fun K => ?_, fun K => ?_, ?_⟩
  · norm_num [cdawson, eqR, z0, rq, negR]
  · norm_num [cdawson, mulR, subR, addR, negR, ltR, eqR, geR, gtR, fabsR,
      rq, z0, abs_lt, le_abs]
  · norm_num [cdawsonBranchOf, mulR, subR, addR, negR, ltR, eqR, geR, gtR, fabsR,
      rq, z0, abs_lt, le_abs]

/-! ### NaN propagation (claim C1) -/

theorem eqR_nanL (a : R) : eqR R.nan a = false := by cases a <;> rfl

theorem eqR_zero_z0 (s : Bool) : eqR (R.zero s) z0 = true := rfl

theorem ltR_nanL (a : R) : ltR R.nan a = false := by
  cases a with
  | nan => rfl
  | inf b => cases b <;> rfl
  | zero b => rfl
  | fin q => rfl

theorem gtR_nanL (a : R) : gtR R.nan a = false := ltR_nanR a

theorem gtR_nanR (a : R) : gtR a R.nan = false := ltR_nanL a

theorem geR_nanR (a : R) : geR a R.nan = false := by
  simp [geR, ltR_nanL, eqR_nanR]

theorem addR_nanL (a : R) : addR R.nan a = R.nan := by cases a <;> rfl

theorem subR_nanL (a : R) : subR R.nan a = R.nan := by cases a <;> rfl

theorem mulR_nanL (a : R) : mulR R.nan a = R.nan := by cases a <;> rfl

theorem negR_nan : negR R.nan = R.nan := rfl

theorem fabsR_nan : fabsR R.nan = R.nan := rfl

theorem isnanR_eq (a : R) : isnanR a = true → a = R.nan := by
  cases a <;> simp [isnanR]

theorem cerfNaN_x_nan_y_zero (K : Kern) (hferf : K.erf R.nan = R.nan) (s : Bool) :
    cerf K ⟨R.nan, R.zero s⟩ = ⟨R.nan, R.zero s⟩ := by
  simp [cerf, eqR_zero_z0, hferf]

theorem cerfNaN_x_nan (K : Kern) (y : R) (hy : eqR y z0 = false) :
    cerf K ⟨R.nan, y⟩ = ⟨R.nan, R.nan⟩ := by
  simp [cerf, hy, eqR_nanL, subR_nanR, addR_nanL, mulR_nanL, ltR_nanL,
    geR_nanL, gtR_nanL, isnanR]

theorem cerfNaN_x_zero_y_nan (K : Kern) (hfexp : K.exp R.nan = R.nan)
    (hfimw : K.im_w_of_x R.nan = R.nan) (s : Bool) :
    cerf K ⟨R.zero s, R.nan⟩ = ⟨R.zero s, R.nan⟩ := by
  simp [cerf, eqR_nanL, eqR_zero_z0, gtR, ltR_nanR, hfexp, hfimw, mulR_nanL]

theorem cerfNaN_y_nan (K : Kern) (hfexp : K.exp R.nan = R.nan)
    (hfcos : K.cos R.nan = R.nan) (hfsin : K.sin R.nan = R.nan)
    (hfw : ∀ w : Cx, isnanR w.re = true ∨ isnanR w.im = true →
      K.w_of_z w = ⟨R.nan, R.nan⟩)
    (x : R) (hx : eqR x z0 = false) :
    cerf K ⟨x, R.nan⟩ = ⟨R.nan, R.nan⟩ := by
  have hw1 : ∀ b, K.w_of_z ⟨R.nan, b⟩ = ⟨R.nan, R.nan⟩ :=
    fun b => hfw _ (Or.inl rfl)
  simp [cerf, hx, eqR_nanL, eqR_nanR, fabsR_nan, ltR_nanL, ltR_nanR,
    addR_nanR, addR_nanL, subR_nanL, subR_nanR, mulR_nanR, mulR_nanL,
    hfexp, hfcos, hfsin, hw1, cerfMainPos, cerfMainNeg, cMul, smul,
    realSub, csubReal, negR_nan]

theorem cerfcNaN_x_zero_y_nan (K : Kern) (hfexp : K.exp R.nan = R.nan)
    (hfimw : K.im_w_of_x R.nan = R.nan) (s : Bool) :
    cerfc K ⟨R.zero s, R.nan⟩ = ⟨rq 1 (by norm_num), R.nan⟩ := by
  simp [cerfc, eqR_zero_z0, gtR, ltR_nanR, hfexp, hfimw, mulR_nanL, negR_nan]

theorem cerfcNaN_x_nan_y_zero (K : Kern) (hfexp : K.exp R.nan = R.nan)
    (hferfcx : K.erfcx R.nan = R.nan) (s : Bool) :
    cerfc K ⟨R.nan, R.zero s⟩ = ⟨R.nan, R.zero (!s)⟩ := by
  simp [cerfc, eqR_nanL, eqR_zero_z0, gtR, ltR_nanR, geR_nanL, hfexp, hferfcx,
    mulR_nanL, mulR_nanR, subR_nanR, negR_nan, negR]

theorem cerfcNaN_x_nan (K : Kern)
    (hfcexp : K.cexp ⟨R.nan, R.nan⟩ = ⟨R.nan, R.nan⟩)
    (hfw : ∀ w : Cx, isnanR w.re = true ∨ isnanR w.im = true →
      K.w_of_z w = ⟨R.nan, R.nan⟩)
    (y : R) (hy : eqR y z0 = false) :
    cerfc K ⟨R.nan, y⟩ = ⟨R.nan, R.nan⟩ := by
  have hw2 : ∀ a, K.w_of_z ⟨a, R.nan⟩ = ⟨R.nan, R.nan⟩ :=
    fun a => hfw _ (Or.inr rfl)
  simp [cerfc, hy, eqR_nanL, subR_nanR, subR_nanL, addR_nanL, addR_nanR,
    mulR_nanL, mulR_nanR, ltR_nanL, geR_nanL, hfcexp, hw2, cMul, realSub,
    negR_nan]

theorem cerfcNaN_y_nan (K : Kern)
    (hfcexp : K.cexp ⟨R.nan, R.nan⟩ = ⟨R.nan, R.nan⟩)
    (hfw : ∀ w : Cx, isnanR w.re = true ∨ isnanR w.im = true →
      K.w_of_z w = ⟨R.nan, R.nan⟩)
    (x : R) (hx : eqR x z0 = false) :
    cerfc K ⟨x, R.nan⟩ = ⟨R.nan, R.nan⟩ := by
  have hw1 : ∀ b, K.w_of_z ⟨R.nan, b⟩ = ⟨R.nan, R.nan⟩ :=
    fun b => hfw _ (Or.inl rfl)
  simp [cerfc, hx, eqR_nanL, eqR_nanR, subR_nanR, subR_nanL, addR_nanL,
    addR_nanR, mulR_nanL, mulR_nanR, ltR_nanL, hfcexp, hw1, cMul, realSub,
    negR_nan]

theorem cerfiNaN_x_nan_y_zero (K : Kern) (hfexp : K.exp R.nan = R.nan)
    (hfimw : K.im_w_of_x R.nan = R.nan) (s : Bool) :
    cerfi K ⟨R.nan, R.zero s⟩ = ⟨R.nan, R.zero s⟩ := by
  unfold cerfi
  simp only [show negR (R.zero s) = R.zero (!s) from rfl, negR_nan]
  rw [cerfNaN_x_zero_y_nan K hfexp hfimw (!s)]
  simp [negR, Bool.not_not]

theorem cerfiNaN_x_nan (K : Kern) (hfexp : K.exp R.nan = R.nan)
    (hfcos : K.cos R.nan = R.nan) (hfsin : K.sin R.nan = R.nan)
    (hfw : ∀ w : Cx, isnanR w.re = true ∨ isnanR w.im = true →
      K.w_of_z w = ⟨R.nan, R.nan⟩)
    (y : R) (hy : eqR y z0 = false) :
    cerfi K ⟨R.nan, y⟩ = ⟨R.nan, R.nan⟩ := by
  unfold cerfi
  rw [cerfNaN_y_nan K hfexp hfcos hfsin hfw (negR y) (by rw [eqR_z0_negR]; exact hy)]
  rfl

theorem cerfiNaN_x_zero_y_nan (K : Kern) (hferf : K.erf R.nan = R.nan) (s : Bool) :
    cerfi K ⟨R.zero s, R.nan⟩ = ⟨R.zero s, R.nan⟩ := by
  unfold cerfi
  simp only [negR_nan]
  rw [cerfNaN_x_nan_y_zero K hferf s]
  rfl

theorem cerfiNaN_y_nan (K : Kern) (x : R) (hx : eqR x z0 = false) :
    cerfi K ⟨x, R.nan⟩ = ⟨R.nan, R.nan⟩ := by
  unfold cerfi
  simp only [negR_nan]
  rw [cerfNaN_x_nan K x hx]
  rfl

theorem cerfcxNaN (K : Kern)
    (hfw : ∀ w : Cx, isnanR w.re = true ∨ isnanR w.im = true →
      K.w_of_z w = ⟨R.nan, R.nan⟩)
    (z : Cx) (h : isnanR z.re = true ∨ isnanR z.im = true) :
    cerfcx K z = ⟨R.nan, R.nan⟩ := by
  unfold cerfcx
  rcases h with h | h
  · exact hfw _ (Or.inr h)
  · rw [isnanR_eq _ h]
    exact hfw _ (Or.inl rfl)

theorem cdawsonNaN_x_nan_y_zero (K : Kern) (hfimw : K.im_w_of_x R.nan = R.nan)
    (s : Bool) :
    cdawson K ⟨R.nan, R.zero s⟩ = ⟨R.nan, R.zero (!s)⟩ := by
  simp [cdawson, eqR_zero_z0, hfimw, mulR_nanR, negR]

theorem cdawsonNaN_x_zero_y_nan (K : Kern) (hferfcx : K.erfcx R.nan = R.nan)
    (hfexp : K.exp R.nan = R.nan) (s : Bool) :
    cdawson K ⟨R.zero s, R.nan⟩ = ⟨R.zero s, R.nan⟩ := by
  simp [cdawson, negR, hferfcx, hfexp, mulR_nanR, subR_nanR, eqR, ltR, geR, z0]

theorem cdawsonNaN_y_nan (K : Kern) (x : R) (hx : eqR x z0 = false) :
    cdawson K ⟨x, R.nan⟩ = ⟨R.nan, R.nan⟩ := by
  simp [cdawson, hx, eqR_nanL, eqR_nanR, geR_nanL, gtR_nanL, ltR_nanL,
    ltR_nanR, isnanR]

theorem cdawsonNaN_x_nan (K : Kern)
    (hfcexp : K.cexp ⟨R.nan, R.nan⟩ = ⟨R.nan, R.nan⟩)
    (hfw : ∀ w : Cx, isnanR w.re = true ∨ isnanR w.im = true →
      K.w_of_z w = ⟨R.nan, R.nan⟩)
    (y : R) (hy : eqR y z0 = false) (hny : isnanR y = false) :
    cdawson K ⟨R.nan, y⟩ = ⟨R.nan, R.nan⟩ := by
  have hw1 : ∀ b, K.w_of_z ⟨R.nan, b⟩ = ⟨R.nan, R.nan⟩ :=
    fun b => hfw _ (Or.inl rfl)
  simp [cdawson, hy, hny, eqR_nanL, fabsR_nan, ltR_nanL, ltR_nanR,
    subR_nanL, subR_nanR, addR_nanL, addR_nanR, mulR_nanL, mulR_nanR,
    hfcexp, hw1, cdMainPos, cdMainNeg, cSub, cNeg, smul, negR_nan]

theorem erfiNaN (K : Kern) (hfexp : K.exp R.nan = R.nan)
    (hfimw : K.im_w_of_x R.nan = R.nan) :
    erfi K R.nan = R.nan := by
  simp [erfi, gtR, ltR_nanR, mulR_nanL, hfexp, hfimw]

theorem dawsonNaN (K : Kern) (hfimw : K.im_w_of_x R.nan = R.nan) :
    dawson K R.nan = R.nan := by
  simp [dawson, hfimw, mulR_nanR]

theorem voigtNaN_gaussian (K : Kern) (hfexp : K.exp R.nan = R.nan)
    (sigma gamma : R) (h : voigtBranchOf sigma gamma = VoigtBranch.gaussian) :
    voigt K R.nan sigma gamma = R.nan := by
  rw [voigt_factor, h]
  simp [voigtArm, negR_nan, mulR_nanL, divR_nanL, hfexp]

theorem voigtNaN_lorentzian (K : Kern) (sigma gamma : R)
    (h : voigtBranchOf sigma gamma = VoigtBranch.lorentzian) :
    voigt K R.nan sigma gamma = R.nan := by
  rw [voigt_factor, h]
  simp [voigtArm, mulR_nanL, addR_nanL, divR_nanR, divR_nanL]

theorem voigtNaN_regular (K : Kern)
    (hfw : ∀ w : Cx, isnanR w.re = true ∨ isnanR w.im = true →
      K.w_of_z w = ⟨R.nan, R.nan⟩)
    (sigma gamma : R) (h : voigtBranchOf sigma gamma = VoigtBranch.regular) :
    voigt K R.nan sigma gamma = R.nan := by
  rw [voigt_factor, h]
  have hw1 : ∀ b, K.w_of_z ⟨R.nan, b⟩ = ⟨R.nan, R.nan⟩ :=
    fun b => hfw _ (Or.inl rfl)
  simp [voigtArm, cdivReal, divR_nanL, hw1]

theorem voigtNaN_delta (K : Kern) (sigma gamma : R)
    (h : voigtBranchOf sigma gamma = VoigtBranch.delta) :
    voigt K R.nan sigma gamma = z0 := by
  rw [voigt_factor, h]
  simp [voigtArm, eqR_nanL]

theorem voigtNaN_sigma (K : Kern) (x gamma : R) :
    voigt K x R.nan gamma = R.nan := by
  simp [voigt, ltR_nanL, eqR_nanL, divR_nanR]

theorem voigtNaN_gamma (K : Kern)
    (hfw : ∀ w : Cx, isnanR w.re = true ∨ isnanR w.im = true →
      K.w_of_z w = ⟨R.nan, R.nan⟩)
    (x sigma : R) :
    voigt K x sigma R.nan = R.nan := by
  have hw2 : ∀ a, K.w_of_z ⟨a, R.nan⟩ = ⟨R.nan, R.nan⟩ :=
    fun a => hfw _ (Or.inr rfl)
  simp [voigt, ltR_nanL, eqR_nanL, divR_nanL, mulR_nanL, addR_nanR,
    cdivReal, hw2]

theorem modelKern_w (w : Cx) (h : isnanR w.re = true ∨ isnanR w.im = true) :
    modelKern.w_of_z w = ⟨R.nan, R.nan⟩ := by
  rcases h with h | h <;> simp [modelKern, h]

/-- C1 counterexample: `voigt(NaN, 0, 0)` returns `+0`, not NaN — the
delta-function branch (err_fcts.c line 143) only tests `x != 0`, so a NaN
`x` falls into the `0` arm and the NaN is swallowed, even though every
collaborator of the concrete instance propagates NaN. -/
theorem nan_propagation_counterexample :
    voigt modelKern R.nan z0 z0 = z0 ∧ z0 ≠ R.nan := by
  exact ⟨rfl, by simp [z0]⟩

/-- C1 amended: for every public function and every input with a NaN
component, NaN propagates to the affected output component(s) with the
branch-determined pattern — except `voigt` with `σ = γ = 0` (the
delta-function branch), where a NaN `x` yields `0` because that branch
only tests `x` against zero.  The collaborators are assumed to propagate
NaN. -/
theorem nan_propagation_amended (K : Kern)
    (hferf : K.erf R.nan = R.nan) (hfexp : K.exp R.nan = R.nan)
    (hfcos : K.cos R.nan = R.nan) (hfsin : K.sin R.nan = R.nan)
    (hfimw : K.im_w_of_x R.nan = R.nan) (hferfcx : K.erfcx R.nan = R.nan)
    (hfcexp : K.cexp ⟨R.nan, R.nan⟩ = ⟨R.nan, R.nan⟩)
    (hfw : ∀ w : Cx, isnanR w.re = true ∨ isnanR w.im = true →
      K.w_of_z w = ⟨R.nan, R.nan⟩) :
    (∀ s, cerf K ⟨R.nan, R.zero s⟩ = ⟨R.nan, R.zero s⟩) ∧
    (∀ y, eqR y z0 = false → cerf K ⟨R.nan, y⟩ = ⟨R.nan, R.nan⟩) ∧
    (∀ s, cerf K ⟨R.zero s, R.nan⟩ = ⟨R.zero s, R.nan⟩) ∧
    (∀ x, eqR x z0 = false → cerf K ⟨x, R.nan⟩ = ⟨R.nan, R.nan⟩) ∧
    (∀ s, cerfc K ⟨R.zero s, R.nan⟩ = ⟨rq 1 (by norm_num), R.nan⟩) ∧
    (∀ s, cerfc K ⟨R.nan, R.zero s⟩ = ⟨R.nan, R.zero (!s)⟩) ∧
    (∀ y, eqR y z0 = false → cerfc K ⟨R.nan, y⟩ = ⟨R.nan, R.nan⟩) ∧
    (∀ x, eqR x z0 = false → cerfc K ⟨x, R.nan⟩ = ⟨R.nan, R.nan⟩) ∧
    (∀ s, cerfi K ⟨R.nan, R.zero s⟩ = ⟨R.nan, R.zero s⟩) ∧
    (∀ y, eqR y z0 = false → cerfi K ⟨R.nan, y⟩ = ⟨R.nan, R.nan⟩) ∧
    (∀ s, cerfi K ⟨R.zero s, R.nan⟩ = ⟨R.zero s, R.nan⟩) ∧
    (∀ x, eqR x z0 = false → cerfi K ⟨x, R.nan⟩ = ⟨R.nan, R.nan⟩) ∧
    (∀ z : Cx, isnanR z.re = true ∨ isnanR z.im = true →
      cerfcx K z = ⟨R.nan, R.nan⟩) ∧
    (∀ s, cdawson K ⟨R.nan, R.zero s⟩ = ⟨R.nan, R.zero (!s)⟩) ∧
    (∀ s, cdawson K ⟨R.zero s, R.nan⟩ = ⟨R.zero s, R.nan⟩) ∧
    (∀ x, eqR x z0 = false → cdawson K ⟨x, R.nan⟩ = ⟨R.nan, R.nan⟩) ∧
    (∀ y, eqR y z0 = false → isnanR y = false →
      cdawson K ⟨R.nan, y⟩ = ⟨R.nan, R.nan⟩) ∧
    erfi K R.nan = R.nan ∧
    dawson K R.nan = R.nan ∧
    (∀ sigma gamma, voigtBranchOf sigma gamma = VoigtBranch.gaussian →
      voigt K R.nan sigma gamma = R.nan) ∧
    (∀ sigma gamma, voigtBranchOf sigma gamma = VoigtBranch.lorentzian →
      voigt K R.nan sigma gamma = R.nan) ∧
    (∀ sigma gamma, voigtBranchOf sigma gamma = VoigtBranch.regular →
      voigt K R.nan sigma gamma = R.nan) ∧
    (∀ x gamma, voigt K x R.nan gamma = R.nan) ∧
    (∀ x sigma, voigt K x sigma R.nan = R.nan) ∧
    (∀ sigma gamma, voigtBranchOf sigma gamma = VoigtBranch.delta →
      voigt K R.nan sigma gamma = z0) :=
  ⟨cerfNaN_x_nan_y_zero K hferf,
   cerfNaN_x_nan K,
   cerfNaN_x_zero_y_nan K hfexp hfimw,
   cerfNaN_y_nan K hfexp hfcos hfsin hfw,
   cerfcNaN_x_zero_y_nan K hfexp hfimw,
   cerfcNaN_x_nan_y_zero K hfexp hferfcx,
   cerfcNaN_x_nan K hfcexp hfw,
   cerfcNaN_y_nan K hfcexp hfw,
   cerfiNaN_x_nan_y_zero K hfexp hfimw,
   cerfiNaN_x_nan K hfexp hfcos hfsin hfw,
   cerfiNaN_x_zero_y_nan K hferf,
   cerfiNaN_y_nan K,
   cerfcxNaN K hfw,
   cdawsonNaN_x_nan_y_zero K hfimw,
   cdawsonNaN_x_zero_y_nan K hferfcx hfexp,
   cdawsonNaN_y_nan K,
   cdawsonNaN_x_nan K hfcexp hfw,
   erfiNaN K hfexp hfimw,
   dawsonNaN K hfimw,
   voigtNaN_gaussian K hfexp,
   voigtNaN_lorentzian K,
   voigtNaN_regular K hfw,
   voigtNaN_sigma K,
   voigtNaN_gamma K hfw,
   voigtNaN_delta K⟩

/-- Witness for C1 (amended): with the concrete collaborator instance,
`cerf(NaN + 3i) = (NaN, NaN)` via the amended theorem. -/
theorem nan_propagation_amended_witness :
    cerf modelKern ⟨R.nan, rq 3 (by norm_num)⟩ = ⟨R.nan, R.nan⟩ :=
  (nan_propagation_amended modelKern rfl rfl rfl rfl rfl rfl rfl
    modelKern_w).2.1 (rq 3 (by norm_num)) rfl

/-! ### Oddness of cdawson (claim C3)

`sameB`-based reasoning: the outputs for `-z` and `z` are compared up to
the sign of zero components (IEEE `==` semantics) with NaN identified
with NaN, which is the strongest relation the abstract collaborators can
preserve; on the real axis the equality is proved on the nose. -/

theorem sameB_refl (a : R) : sameB a a = true := by simp [sameB]

theorem sameB_iff (a b : R) :
    sameB a b = true ↔ a = b ∨ (isZeroR a = true ∧ isZeroR b = true) := by
  simp [sameB, Bool.or_eq_true, Bool.and_eq_true, beq_iff_eq]

theorem isZeroR_iff (a : R) : isZeroR a = true ↔ ∃ s, a = R.zero s := by
  cases a <;> simp [isZeroR]

theorem sameB_symm (a b : R) : sameB a b = true → sameB b a = true := by
  rw [sameB_iff, sameB_iff]
  rintro (rfl | ⟨h1, h2⟩)
  · exact Or.inl rfl
  · exact Or.inr ⟨h2, h1⟩

theorem sameB_trans (a b c : R) :
    sameB a b = true → sameB b c = true → sameB a c = true := by
  rw [sameB_iff, sameB_iff, sameB_iff]
  rintro (rfl | ⟨h1, h2⟩) (rfl | ⟨h3, h4⟩)
  · exact Or.inl rfl
  · exact Or.inr ⟨h3, h4⟩
  · exact Or.inr ⟨h1, h2⟩
  · exact Or.inr ⟨h1, h4⟩

theorem negR_sameB (a b : R) : sameB a b = true → sameB (negR a) (negR b) = true := by
  rw [sameB_iff, sameB_iff]
  rintro (rfl | ⟨h1, h2⟩)
  · exact Or.inl rfl
  · rcases (isZeroR_iff a).mp h1 with ⟨s, rfl⟩
    rcases (isZeroR_iff b).mp h2 with ⟨t, rfl⟩
    exact Or.inr ⟨rfl, rfl⟩

theorem addR_sameB (a a' b b' : R) (ha : sameB a a' = true) (hb : sameB b b' = true) :
    sameB (addR a b) (addR a' b') = true := by
  rw [sameB_iff] at ha hb
  rcases ha with rfl | ⟨h1, h2⟩ <;> rcases hb with rfl | ⟨h3, h4⟩
  · exact sameB_refl _
  · rcases (isZeroR_iff b).mp h3 with ⟨t, rfl⟩
    rcases (isZeroR_iff b').mp h4 with ⟨t', rfl⟩
    cases a <;> simp [addR, sameB, isZeroR]
  · rcases (isZeroR_iff a).mp h1 with ⟨s, rfl⟩
    rcases (isZeroR_iff a').mp h2 with ⟨s', rfl⟩
    cases b <;> simp [addR, sameB, isZeroR]
  · rcases (isZeroR_iff a).mp h1 with ⟨s, rfl⟩
    rcases (isZeroR_iff a').mp h2 with ⟨s', rfl⟩
    rcases (isZeroR_iff b).mp h3 with ⟨t, rfl⟩
    rcases (isZeroR_iff b').mp h4 with ⟨t', rfl⟩
    simp [addR, sameB, isZeroR]

theorem mulR_sameB (a a' b b' : R) (ha : sameB a a' = true) (hb : sameB b b' = true) :
    sameB (mulR a b) (mulR a' b') = true := by
  rw [sameB_iff] at ha hb
  rcases ha with rfl | ⟨h1, h2⟩ <;> rcases hb with rfl | ⟨h3, h4⟩
  · exact sameB_refl _
  · rcases (isZeroR_iff b).mp h3 with ⟨t, rfl⟩
    rcases (isZeroR_iff b').mp h4 with ⟨t', rfl⟩
    cases a <;> simp [mulR, sameB, isZeroR]
  · rcases (isZeroR_iff a).mp h1 with ⟨s, rfl⟩
    rcases (isZeroR_iff a').mp h2 with ⟨s', rfl⟩
    cases b <;> simp [mulR, sameB, isZeroR]
  · rcases (isZeroR_iff a).mp h1 with ⟨s, rfl⟩
    rcases (isZeroR_iff a').mp h2 with ⟨s', rfl⟩
    rcases (isZeroR_iff b).mp h3 with ⟨t, rfl⟩
    rcases (isZeroR_iff b').mp h4 with ⟨t', rfl⟩
    simp [mulR, sameB, isZeroR]

theorem divR_sameB_left (a a' b : R) (ha : sameB a a' = true) :
    sameB (divR a b) (divR a' b) = true := by
  rw [sameB_iff] at ha
  rcases ha with rfl | ⟨h1, h2⟩
  · exact sameB_refl _
  · rcases (isZeroR_iff a).mp h1 with ⟨s, rfl⟩
    rcases (isZeroR_iff a').mp h2 with ⟨s', rfl⟩
    cases b <;> simp [divR, sameB, isZeroR]

theorem subR_sameB (a a' b b' : R) (ha : sameB a a' = true) (hb : sameB b b' = true) :
    sameB (subR a b) (subR a' b') = true :=
  addR_sameB _ _ _ _ ha (negR_sameB _ _ hb)

theorem add_neg_sameB (a b : R) :
    sameB (addR (negR a) (negR b)) (negR (addR a b)) = true := by
  cases a with
  | nan => simp [addR, negR, sameB]
  | inf s => cases b with
    | nan => simp [addR, negR, sameB]
    | inf t => cases s <;> cases t <;> simp [addR, negR, sameB]
    | zero t => simp [addR, negR, sameB]
    | fin q => simp [addR, negR, sameB]
  | zero s => cases b with
    | nan => simp [addR, negR, sameB]
    | inf t => simp [addR, negR, sameB]
    | zero t => simp [addR, negR, sameB, isZeroR]
    | fin q => simp [addR, negR, sameB]
  | fin p => cases b with
    | nan => simp [addR, negR, sameB]
    | inf t => simp [addR, negR, sameB]
    | zero t => simp [addR, negR, sameB]
    | fin q =>
        by_cases h : p.val + q.val = 0
        · have h' : -p.val + -q.val = 0 := by linarith
          simp [addR, negR, h, h', sameB, isZeroR]
        · have h' : ¬(-p.val + -q.val = 0) := by intro hc; apply h; linarith
          simp [addR, negR, h, h', sameB, isZeroR, Subtype.ext_iff]
          ring

theorem addR_comm (a b : R) : addR a b = addR b a := by
  cases a with
  | nan => cases b <;> rfl
  | inf s => cases b with
    | nan => rfl
    | inf t => cases s <;> cases t <;> rfl
    | zero t => rfl
    | fin q => rfl
  | zero s => cases b with
    | nan => rfl
    | inf t => rfl
    | zero t => simp [addR, Bool.and_comm]
    | fin q => rfl
  | fin p => cases b with
    | nan => rfl
    | inf t => rfl
    | zero t => rfl
    | fin q =>
        by_cases h : p.val + q.val = 0
        · have h' : q.val + p.val = 0 := by linarith
          simp [addR, h, h']
        · have h' : ¬(q.val + p.val = 0) := fun hc => h (by linarith)
          simp [addR, h, h', Subtype.ext_iff]
          ring

theorem sub_swap_sameB (a b : R) :
    sameB (subR b a) (negR (subR a b)) = true := by
  have h2 := add_neg_sameB a (negR b)
  rw [negR_negR] at h2
  have h1 : subR b a = addR (negR a) b := addR_comm b (negR a)
  rw [show subR b a = addR b (negR a) from rfl, addR_comm b (negR a)]
  exact h2

theorem opp_add (a a' b b' : R) (ha : sameB a (negR a') = true)
    (hb : sameB b (negR b') = true) :
    sameB (addR a b) (negR (addR a' b')) = true :=
  sameB_trans _ _ _ (addR_sameB _ _ _ _ ha hb) (add_neg_sameB a' b')

theorem opp_neg (a a' : R) (h : sameB a (negR a') = true) :
    sameB (negR a) a' = true := by
  have h2 := negR_sameB _ _ h
  rwa [negR_negR] at h2

theorem opp_sub (a a' b b' : R) (ha : sameB a (negR a') = true)
    (hb : sameB b (negR b') = true) :
    sameB (subR a b) (negR (subR a' b')) = true :=
  opp_add _ _ _ _ ha (negR_sameB _ _ hb)

theorem opp_mul_left (a a' b : R) (ha : sameB a (negR a') = true) :
    sameB (mulR a b) (negR (mulR a' b)) = true := by
  have h := mulR_sameB _ _ _ _ ha (sameB_refl b)
  rwa [mulR_negL] at h

theorem opp_mul_right (a b b' : R) (hb : sameB b (negR b') = true) :
    sameB (mulR a b) (negR (mulR a b')) = true := by
  have h := mulR_sameB _ _ _ _ (sameB_refl a) hb
  rwa [mulR_negR] at h

theorem same_mul_opp_opp (a a' b b' : R) (ha : sameB a (negR a') = true)
    (hb : sameB b (negR b') = true) :
    sameB (mulR a b) (mulR a' b') = true := by
  have h := mulR_sameB _ _ _ _ ha hb
  rwa [mulR_negNeg] at h

theorem sameCx_mk {a b c d : R} (h1 : sameB a c = true) (h2 : sameB b d = true) :
    sameCx ⟨a, b⟩ ⟨c, d⟩ = true := by
  simp [sameCx, h1, h2]

theorem sameCx_refl (u : Cx) : sameCx u u = true := by
  simp [sameCx, sameB_refl]

theorem sameCx_re {u v : Cx} (h : sameCx u v = true) : sameB u.re v.re = true := by
  have h' := h
  simp only [sameCx, Bool.and_eq_true] at h'
  exact h'.1

theorem sameCx_im {u v : Cx} (h : sameCx u v = true) : sameB u.im v.im = true := by
  have h' := h
  simp only [sameCx, Bool.and_eq_true] at h'
  exact h'.2

theorem cNeg_cNeg (z : Cx) : cNeg (cNeg z) = z := by
  simp [cNeg, negR_negR]

theorem realAdd_sameCx (s : R) (u v : Cx) (h : sameCx u v = true) :
    sameCx (realAdd s u) (realAdd s v) = true := by
  unfold realAdd
  exact sameCx_mk (addR_sameB _ _ _ _ (sameB_refl s) (sameCx_re h)) (sameCx_im h)

theorem cmulReal_sameCx (u v : Cx) (s : R) (h : sameCx u v = true) :
    sameCx (cmulReal u s) (cmulReal v s) = true := by
  unfold cmulReal
  exact sameCx_mk (mulR_sameB _ _ _ _ (sameCx_re h) (sameB_refl s))
    (mulR_sameB _ _ _ _ (sameCx_im h) (sameB_refl s))

theorem cMul_sameCx (u u' v v' : Cx) (hu : sameCx u u' = true)
    (hv : sameCx v v' = true) :
    sameCx (cMul u v) (cMul u' v') = true := by
  unfold cMul
  exact sameCx_mk
    (subR_sameB _ _ _ _ (mulR_sameB _ _ _ _ (sameCx_re hu) (sameCx_re hv))
      (mulR_sameB _ _ _ _ (sameCx_im hu) (sameCx_im hv)))
    (addR_sameB _ _ _ _ (mulR_sameB _ _ _ _ (sameCx_re hu) (sameCx_im hv))
      (mulR_sameB _ _ _ _ (sameCx_im hu) (sameCx_re hv)))

theorem cMul_opp_left (z v v' : Cx) (hv : sameCx v v' = true) :
    sameCx (cMul (cNeg z) v) (cNeg (cMul z v')) = true := by
  unfold cMul cNeg
  have h1 : sameB (mulR (negR z.re) v.re) (negR (mulR z.re v'.re)) = true := by
    rw [mulR_negL]
    exact negR_sameB _ _ (mulR_sameB _ _ _ _ (sameB_refl _) (sameCx_re hv))
  have h2 : sameB (mulR (negR z.im) v.im) (negR (mulR z.im v'.im)) = true := by
    rw [mulR_negL]
    exact negR_sameB _ _ (mulR_sameB _ _ _ _ (sameB_refl _) (sameCx_im hv))
  have h3 : sameB (mulR (negR z.re) v.im) (negR (mulR z.re v'.im)) = true := by
    rw [mulR_negL]
    exact negR_sameB _ _ (mulR_sameB _ _ _ _ (sameB_refl _) (sameCx_im hv))
  have h4 : sameB (mulR (negR z.im) v.re) (negR (mulR z.im v'.re)) = true := by
    rw [mulR_negL]
    exact negR_sameB _ _ (mulR_sameB _ _ _ _ (sameB_refl _) (sameCx_re hv))
  exact sameCx_mk (opp_sub _ _ _ _ h1 h2) (opp_add _ _ _ _ h3 h4)

theorem cdTaylor_odd (z m m' : Cx) (hm : sameCx m' m = true) :
    sameCx (cdTaylor (cNeg z) m') (cNeg (cdTaylor z m)) = true := by
  unfold cdTaylor
  exact cMul_opp_left z _ _ (realAdd_sameCx _ _ _ (cMul_sameCx _ _ _ _ hm
    (realAdd_sameCx _ _ _ (cmulReal_sameCx _ _ _ hm))))

theorem cSub_swap_opp (u u' v v' : Cx) (hu : sameCx u u' = true)
    (hv : sameCx v v' = true) :
    sameCx (cSub u v) (cNeg (cSub v' u')) = true := by
  unfold cSub cNeg
  exact sameCx_mk
    (sameB_trans _ _ _
      (subR_sameB _ _ _ _ (sameCx_re hu) (sameCx_re hv))
      (sub_swap_sameB _ _))
    (sameB_trans _ _ _
      (subR_sameB _ _ _ _ (sameCx_im hu) (sameCx_im hv))
      (sub_swap_sameB _ _))

theorem rotate_smul_opp (res res' : Cx) (h : sameCx res' (cNeg res) = true) :
    sameCx (smul spi2R ⟨negR res'.im, res'.re⟩)
      (cNeg (smul spi2R ⟨negR res.im, res.re⟩)) = true := by
  have hre : sameB res'.re (negR res.re) = true := sameCx_re h
  have him : sameB res'.im (negR res.im) = true := sameCx_im h
  unfold smul cNeg
  apply sameCx_mk
  · have he : negR (mulR spi2R (negR res.im)) = mulR spi2R res.im := by
      rw [← mulR_negR, negR_negR]
    rw [he]
    exact mulR_sameB _ _ _ _ (sameB_refl _) (opp_neg _ _ him)
  · exact opp_mul_right _ _ _ hre

theorem cdMainNeg_of_pos (K : Kern)
    (hcexp : ∀ u v : Cx, sameCx u v = true → sameCx (K.cexp u) (K.cexp v) = true)
    (z m m' : Cx) (hm : sameCx m' m = true) :
    sameCx (cdMainNeg K (cNeg z) m') (cNeg (cdMainPos K z m)) = true := by
  unfold cdMainNeg cdMainPos
  rw [cNeg_cNeg]
  exact rotate_smul_opp _ _
    (cSub_swap_opp _ _ _ _ (sameCx_refl (K.w_of_z z)) (hcexp _ _ hm))

theorem cdMainPos_of_neg (K : Kern)
    (hcexp : ∀ u v : Cx, sameCx u v = true → sameCx (K.cexp u) (K.cexp v) = true)
    (z m m' : Cx) (hm : sameCx m' m = true) :
    sameCx (cdMainPos K (cNeg z) m') (cNeg (cdMainNeg K z m)) = true := by
  unfold cdMainPos cdMainNeg
  exact rotate_smul_opp _ _
    (cSub_swap_opp _ _ _ _ (hcexp _ _ hm) (sameCx_refl (K.w_of_z (cNeg z))))

theorem cdRaHuge_neg (x y : R) : cdRaHuge (negR x) (negR y) = cNeg (cdRaHuge x y) := by
  unfold cdRaHuge cNeg
  simp only [mulR_negNeg, divR_negR, mulR_negL, mulR_negR, divR_negL, negR_negR]

theorem cdRaCF_neg (x y : R) : cdRaCF (negR x) (negR y) = cNeg (cdRaCF x y) := by
  unfold cdRaCF cNeg smul
  simp only [mulR_negNeg, mulR_negL, mulR_negR, negR_negR]

theorem cdRaSmall_odd (K : Kern)
    (him : ∀ a, K.im_w_of_x (negR a) = negR (K.im_w_of_x a)) (x y : R) :
    sameCx (cdRaSmall K (negR x) (negR y)) (cNeg (cdRaSmall K x y)) = true := by
  unfold cdRaSmall cNeg
  simp only [mulR_negNeg, him, mulR_negR, mulR_negL, negR_negR]
  apply sameCx_mk
  · apply opp_add
    · apply opp_add
      · exact sameB_refl _
      · apply opp_mul_right
        apply opp_sub
        · exact opp_add _ _ _ _ (sameB_refl _) (sameB_refl _)
        · exact sameB_refl _
    · apply opp_mul_right
      exact opp_add _ _ _ _ (sameB_refl _) (sameB_refl _)
  · exact sameB_refl _

theorem mRe_neg_sameB (x y : R) :
    sameB (mulR (subR (negR y) (negR x)) (addR (negR x) (negR y)))
      (mulR (subR y x) (addR x y)) = true := by
  apply same_mul_opp_opp
  · exact opp_sub _ _ _ _ (sameB_refl (negR y)) (sameB_refl (negR x))
  · exact opp_add _ _ _ _ (sameB_refl (negR x)) (sameB_refl (negR y))

theorem mIm_neg_eq (c x y : R) :
    mulR (mulR c (negR x)) (negR y) = mulR (mulR c x) y := by
  simp only [mulR_negR, mulR_negL, mulR_negNeg, negR_negR]

theorem mz2_neg_sameCx (x y : R) {h : (-2 : ℚ) ≠ 0} :
    sameCx ⟨mulR (subR (negR y) (negR x)) (addR (negR x) (negR y)),
            mulR (mulR (rq (-2) h) (negR x)) (negR y)⟩
      (⟨mulR (subR y x) (addR x y), mulR (mulR (rq (-2) h) x) y⟩ : Cx) = true := by
  apply sameCx_mk (mRe_neg_sameB x y)
  rw [mIm_neg_eq]
  exact sameB_refl _

theorem cdNanNeg_arm_neg (x : R) :
    sameCx ⟨if eqR (negR x) z0 then z0 else R.nan, R.nan⟩
      (cNeg ⟨if eqR x z0 then z0 else R.nan, R.nan⟩) = true := by
  rw [eqR_z0_negR]
  unfold cNeg
  cases h : eqR x z0 <;> simp [h, sameCx, sameB, isZeroR, z0, negR]

theorem cdImagExact_arm_neg (K : Kern) (hexp : K.exp R.nan = R.nan)
    (herfcx : K.erfcx R.nan = R.nan) (x y : R) (hy : eqR y z0 = false) :
    sameCx ⟨negR x, mulR spi2R (if geR (negR y) z0 then
        subR (K.exp (mulR (negR y) (negR y))) (K.erfcx (negR y))
      else subR (K.erfcx (negR (negR y))) (K.exp (mulR (negR y) (negR y))))⟩
      (cNeg ⟨x, mulR spi2R (if geR y z0 then subR (K.exp (mulR y y)) (K.erfcx y)
        else subR (K.erfcx (negR y)) (K.exp (mulR y y)))⟩) = true := by
  rw [mulR_negNeg, negR_negR]
  unfold cNeg
  apply sameCx_mk (sameB_refl _)
  apply opp_mul_right
  cases y with
  | nan =>
      simp only [negR_nan, geR_nanL, Bool.false_eq_true, if_false, hexp, herfcx,
        show mulR R.nan R.nan = R.nan from rfl, subR_nanR]
      exact sameB_refl _
  | zero s => exact absurd hy (by simp [eqR_zero_z0])
  | inf b =>
      cases b with
      | false =>
          simp only [show geR (negR (R.inf false)) z0 = false from rfl,
            show geR (R.inf false) z0 = true from rfl, Bool.false_eq_true,
            if_false, if_true]
          exact sub_swap_sameB _ _
      | true =>
          simp only [show geR (negR (R.inf true)) z0 = true from rfl,
            show geR (R.inf true) z0 = false from rfl, Bool.false_eq_true,
            if_false, if_true]
          exact sub_swap_sameB _ _
  | fin q =>
      rcases q.prop.lt_or_lt with hq | hq
      · have h1 : geR (negR (R.fin q)) z0 = true := by
          simp [geR, ltR, eqR, negR, z0, hq]
        have h2 : geR (R.fin q) z0 = false := by
          simp [geR, ltR, eqR, z0, asymm hq]
        simp only [h1, h2, Bool.false_eq_true, if_false, if_true]
        exact sub_swap_sameB _ _
      · have h1 : geR (negR (R.fin q)) z0 = false := by
          simp [geR, ltR, eqR, negR, z0, asymm (neg_neg_of_pos hq)]
        have h2 : geR (R.fin q) z0 = true := by
          simp [geR, ltR, eqR, z0, hq]
        simp only [h1, h2, Bool.false_eq_true, if_false, if_true]
        exact sub_swap_sameB _ _

theorem cdawsonBranchOf_neg (z : Cx) :
    cdawsonBranchOf (cNeg z) = cdMirror (cdawsonBranchOf z) := by
  obtain ⟨x, y⟩ := z
  unfold cdawsonBranchOf cNeg
  dsimp only
  rw [eqR_z0_negR y, eqR_z0_negR x, mulR_negNeg y y, mulR_negNeg x x,
    mIm_neg_eq, fabsR_negR]
  simp only [apply_ite cdMirror]
  simp only [cdMirror]
  cases hy0 : eqR y z0 with
  | true => rfl
  | false =>
  cases hx0 : eqR x z0 with
  | true => rfl
  | false =>
  cases y with
  | nan => rfl
  | zero s => simp [eqR_zero_z0] at hy0
  | inf b => cases b <;> rfl
  | fin q =>
    rcases q.prop.lt_or_lt with hq | hq
    · have hA : geR (negR (R.fin q)) z0 = true := by
        simp [geR, ltR, eqR, negR, z0, neg_pos, hq]
      have hB : geR (R.fin q) z0 = false := by
        simp [geR, ltR, eqR, z0, asymm hq]
      have hCD : ltR (negR (R.fin q)) (rq 5e-3 (by norm_num)) =
          gtR (R.fin q) (rq (-5e-3) (by norm_num)) := by
        simp only [ltR, gtR, negR, rq]
        exact decide_eq_decide.mpr ⟨fun h => by linarith, fun h => by linarith⟩
      rw [hA, hB, hCD]
      simp [isnanR, negR]
    · have hA : geR (negR (R.fin q)) z0 = false := by
        simp [geR, ltR, eqR, negR, z0, asymm (neg_neg_of_pos hq)]
      have hB : geR (R.fin q) z0 = true := by
        simp [geR, ltR, eqR, z0, hq]
      have hCD : gtR (negR (R.fin q)) (rq (-5e-3) (by norm_num)) =
          ltR (R.fin q) (rq 5e-3 (by norm_num)) := by
        simp only [ltR, gtR, negR, rq]
        exact decide_eq_decide.mpr ⟨fun h => by linarith, fun h => by linarith⟩
      rw [hA, hB, hCD]
      simp [isnanR, negR]

theorem negR_zero (s : Bool) : negR (R.zero s) = R.zero (!s) := rfl

theorem branchOf_imagExact_y (z : Cx)
    (hb : cdawsonBranchOf z = CdawsonBranch.imagExact) : eqR z.im z0 = false := by
  cases h : eqR z.im z0 with
  | false => rfl
  | true => simp [cdawsonBranchOf, h] at hb

/-- C3: `cdawson` is odd.  For every `z`, `cdawson(-z)` and
`-cdawson(z)` are the same IEEE datum componentwise up to the sign of
zero components and with NaN matching NaN (`sameCx`); on the signed-zero
real axis (`y = ±0`) the equality holds on the nose, signs of zeros
included.  Hypotheses: `im_w_of_x` is odd (as the claim grants), the
external `exp`/`erfcx` propagate NaN, and `cexp` maps `sameCx` inputs to
`sameCx` outputs (true of the mathematical `cexp`, whose value does not
depend on the sign of a zero component). -/
theorem cdawson_odd (K : Kern)
    (him : ∀ a, K.im_w_of_x (negR a) = negR (K.im_w_of_x a))
    (hexp : K.exp R.nan = R.nan) (herfcx : K.erfcx R.nan = R.nan)
    (hcexp : ∀ u v : Cx, sameCx u v = true → sameCx (K.cexp u) (K.cexp v) = true) :
    (∀ z : Cx, sameCx (cdawson K (cNeg z)) (cNeg (cdawson K z)) = true) ∧
    (∀ (x : R) (s : Bool),
      cdawson K (cNeg ⟨x, R.zero s⟩) = cNeg (cdawson K ⟨x, R.zero s⟩)) := by
  constructor
  · intro z
    rw [cdawson_factor, cdawson_factor, cdawsonBranchOf_neg]
    cases hb : cdawsonBranchOf z with
    | realAxis =>
        show sameCx ⟨mulR spi2R (K.im_w_of_x (negR z.re)), negR (negR z.im)⟩
          (cNeg ⟨mulR spi2R (K.im_w_of_x z.re), negR z.im⟩) = true
        rw [him, mulR_negR]
        exact sameCx_refl _
    | imagTaylor =>
        dsimp only [cdawsonArm, cdMirror, cNeg]
        simp only [mulR_negNeg]
        simp only [mulR_negL]
        exact sameCx_refl _
    | imagExact =>
        exact cdImagExact_arm_neg K hexp herfcx z.re z.im (branchOf_imagExact_y z hb)
    | taylor =>
        exact cdTaylor_odd z _ _ (mz2_neg_sameCx z.re z.im)
    | raSmall =>
        exact cdRaSmall_odd K him z.re z.im
    | raCF =>
        show sameCx (cdRaCF (negR z.re) (negR z.im)) (cNeg (cdRaCF z.re z.im)) = true
        rw [cdRaCF_neg]
        exact sameCx_refl _
    | raHuge =>
        show sameCx (cdRaHuge (negR z.re) (negR z.im)) (cNeg (cdRaHuge z.re z.im)) = true
        rw [cdRaHuge_neg]
        exact sameCx_refl _
    | mainPos =>
        exact cdMainNeg_of_pos K hcexp z _ _ (mz2_neg_sameCx z.re z.im)
    | nanNeg =>
        exact cdNanNeg_arm_neg z.re
    | mainNeg =>
        exact cdMainPos_of_neg K hcexp z _ _ (mz2_neg_sameCx z.re z.im)
  · intro x s
    simp [cdawson, cNeg, negR_zero, eqR_zero_z0, him, mulR_negR, negR_negR,
      Bool.not_not]

/-- Witness for C3 at `z = 1 + 1i` with the concrete collaborators. -/
theorem cdawson_odd_witness :
    sameCx (cdawson modelKern (cNeg ⟨rq 1 (by norm_num), rq 1 (by norm_num)⟩))
      (cNeg (cdawson modelKern ⟨rq 1 (by norm_num), rq 1 (by norm_num)⟩)) = true :=
  (cdawson_odd modelKern (fun _ => rfl) rfl rfl (fun _ _ h => h)).1 _
